import Mathlib

/-!
Verification of the apex-analyzer corner/kinematics/position analysis core.

The definitions below are shallow embeddings of the TypeScript source:
- `analyzeCorner` in src/components/analysis/CornerAnalysis.tsx
  (apex search, braking/throttle scans, distances, window extraction),
- `fetchDriverTraces` and `fetchTrackData` in src/components/track/CornerZoom.tsx
  (segment alignment by positional fraction, corner detection and
  de-duplication),
- the `driverPositions` memo of RacePositionChart
  (cumulative lap-time accumulation and stable ranking).

JavaScript numbers are IEEE-754 binary64 values. The segment-alignment
center `Math.floor(Ntarget * (i / Nref))` is sensitive to float rounding,
so it is embedded bit-exactly: floats appear as mantissa/exponent pairs
over ℕ × ℤ, with the division and the multiplication each correctly
rounded to 53 significand bits (round to nearest, ties to even), exactly
as the hardware computes them for the integer operands that occur here.
The remaining claims concern control flow, index arithmetic, comparisons
and ordering, none of which depend on float rounding at the inputs
considered; there floats are modelled as exact rationals.
-/

namespace ApexAnalyzer

/-- One telemetry sample of the car-data stream. Only the channels the
corner analysis reads (speed, throttle, brake) are carried. -/
structure CarData where
  speed : ℚ
  throttle : ℚ
  brake : ℚ
deriving DecidableEq, Repr, Inhabited

/-- Speed of the sample at index `i` of a window (out-of-range reads give the
default sample, never reached under the bounds used below). -/
def spd (w : List CarData) (i : ℕ) : ℚ := (w.getD i default).speed

/-- Loop body of the apex search in analyzeCorner: walk the window keeping
the index and value of the running strict minimum (`data.speed < minSpeed`
updates, so the first occurrence of the minimum wins). -/
def apexFold : List CarData → ℕ → ℕ × ℚ → ℕ × ℚ
  | [], _, acc => acc
  | s :: rest, i, acc =>
      apexFold rest (i + 1) (if s.speed < acc.2 then (i, s.speed) else acc)

/-- Apex search: `minSpeed` starts at Infinity in the source, so the first
sample always wins the first comparison; thereafter updates are strict. -/
def apexOf : List CarData → ℕ × ℚ
  | [] => (0, 0)
  | s :: rest => apexFold rest 1 (0, s.speed)

/-- Index of the minimum-speed sample (the apex), first occurrence. -/
def minSpeedIdx (w : List CarData) : ℕ := (apexOf w).1

/-- Braking point: first index strictly before the apex with brake above 10;
defaults to the window start (index 0) when no such sample exists. -/
def brakingStartIdx (w : List CarData) : ℕ :=
  match (List.range (minSpeedIdx w)).find?
      (fun i => decide (10 < (w.getD i default).brake)) with
  | some i => i
  | none => 0

/-- Throttle-on point: first index at or after the apex with throttle above
50; defaults to the apex index when no such sample exists. -/
def throttleOnIdx (w : List CarData) : ℕ :=
  match (List.range' (minSpeedIdx w) (w.length - minSpeedIdx w)).find?
      (fun i => decide (50 < (w.getD i default).throttle)) with
  | some i => i
  | none => minSpeedIdx w

/-- Heuristic distance covered between two consecutive samples (the source
uses the constant 27). -/
def metersPerSample : ℚ := 27

/-- brakingDistance = (minSpeedIdx - brakingStartIdx) * metersPerSample. -/
def brakingDistance (w : List CarData) : ℚ :=
  ((minSpeedIdx w : ℚ) - (brakingStartIdx w : ℚ)) * metersPerSample

/-- throttleOnDistance = (throttleOnIdx - minSpeedIdx) * metersPerSample. -/
def throttleOnDistance (w : List CarData) : ℚ :=
  ((throttleOnIdx w : ℚ) - (minSpeedIdx w : ℚ)) * metersPerSample

/-- Entry speed: speed of the first sample of the window, 0 on empty. -/
def entrySpeed (w : List CarData) : ℚ := ((w.head?).map CarData.speed).getD 0

/-- Exit speed: speed of the last sample of the window, 0 on empty. -/
def exitSpeed (w : List CarData) : ℚ := ((w.getLast?).map CarData.speed).getD 0

/-- Apex-centred speed trace: each sample re-indexed as
(i - minSpeedIdx) * metersPerSample paired with its speed. -/
def speedTrace (w : List CarData) : List (ℚ × ℚ) :=
  w.enum.map (fun p => (((p.1 : ℚ) - (minSpeedIdx w : ℚ)) * metersPerSample, p.2.speed))

section ApexLemmas

theorem apexFold_const (l : List CarData) (i : ℕ) (bi : ℕ) (bv : ℚ)
    (h : ∀ s ∈ l, bv < s.speed) : apexFold l i (bi, bv) = (bi, bv) := by
  induction l generalizing i with
  | nil => rfl
  | cons s rest ih =>
      have hs : ¬ s.speed < bv := not_lt_of_lt (h s (List.mem_cons_self s rest))
      simp only [apexFold, if_neg hs]
      exact ih (i + 1) (fun t ht => h t (List.mem_cons_of_mem s ht))

theorem apexFold_argmin (l : List CarData) (k : ℕ) (hk : k < l.length)
    (i₀ : ℕ) (acc : ℕ × ℚ)
    (hlt : (l.get ⟨k, hk⟩).speed < acc.2)
    (huniq : ∀ j (hj : j < l.length), j ≠ k →
        (l.get ⟨k, hk⟩).speed < (l.get ⟨j, hj⟩).speed) :
    apexFold l i₀ acc = (i₀ + k, (l.get ⟨k, hk⟩).speed) := by
  induction l generalizing i₀ acc k with
  | nil => exact absurd hk (Nat.not_lt_zero k)
  | cons s rest ih =>
      cases k with
      | zero =>
          have hck : (((s :: rest).get ⟨0, hk⟩)) = s := rfl
          rw [hck] at hlt huniq
          simp only [apexFold, if_pos hlt]
          have hrest : ∀ t ∈ rest, s.speed < t.speed := by
            intro t ht
            obtain ⟨⟨j, hj⟩, hget⟩ := List.mem_iff_get.mp ht
            have h2 : s.speed < (rest.get ⟨j, hj⟩).speed := by
              have := huniq (j + 1) (Nat.succ_lt_succ hj) (Nat.succ_ne_zero j)
              simpa using this
            rwa [hget] at h2
          rw [apexFold_const rest (i₀ + 1) i₀ s.speed hrest]
          simp
      | succ k' =>
          have hk' : k' < rest.length := Nat.lt_of_succ_lt_succ hk
          have hgk : ((s :: rest).get ⟨k' + 1, hk⟩) = rest.get ⟨k', hk'⟩ := rfl
          rw [hgk] at hlt huniq ⊢
          have huniq' : ∀ j (hj : j < rest.length), j ≠ k' →
              (rest.get ⟨k', hk'⟩).speed < (rest.get ⟨j, hj⟩).speed := by
            intro j hj hne
            have := huniq (j + 1) (Nat.succ_lt_succ hj)
              (fun hc => hne (Nat.succ_injective hc))
            simpa using this
          have hs : (rest.get ⟨k', hk'⟩).speed < s.speed := by
            have := huniq 0 (Nat.succ_pos rest.length) (Nat.succ_ne_zero k').symm
            simpa using this
          simp only [apexFold]
          by_cases hcase : s.speed < acc.2
          · rw [if_pos hcase]
            have := ih k' hk' (i₀ + 1) (i₀, s.speed) (by simpa using hs) huniq'
            rw [this]
            simp only [Prod.mk.injEq]
            exact ⟨by omega, trivial⟩
          · rw [if_neg hcase]
            have := ih k' hk' (i₀ + 1) acc hlt huniq'
            rw [this]
            simp only [Prod.mk.injEq]
            exact ⟨by omega, trivial⟩

/-- With a unique strict minimum at index `k`, the apex search returns
exactly index `k` and the speed there. -/
theorem apexOf_unique_min (w : List CarData) (k : ℕ) (hk : k < w.length)
    (huniq : ∀ j (hj : j < w.length), j ≠ k →
        (w.get ⟨k, hk⟩).speed < (w.get ⟨j, hj⟩).speed) :
    apexOf w = (k, (w.get ⟨k, hk⟩).speed) := by
  cases w with
  | nil => exact absurd hk (Nat.not_lt_zero k)
  | cons s rest =>
      cases k with
      | zero =>
          have hck : (((s :: rest).get ⟨0, hk⟩)) = s := rfl
          rw [hck] at huniq ⊢
          simp only [apexOf]
          have hrest : ∀ t ∈ rest, s.speed < t.speed := by
            intro t ht
            obtain ⟨⟨j, hj⟩, hget⟩ := List.mem_iff_get.mp ht
            have h2 : s.speed < (rest.get ⟨j, hj⟩).speed := by
              have := huniq (j + 1) (Nat.succ_lt_succ hj) (Nat.succ_ne_zero j)
              simpa using this
            rwa [hget] at h2
          rw [apexFold_const rest 1 0 s.speed hrest]
      | succ k' =>
          have hk' : k' < rest.length := Nat.lt_of_succ_lt_succ hk
          have hgk : ((s :: rest).get ⟨k' + 1, hk⟩) = rest.get ⟨k', hk'⟩ := rfl
          rw [hgk] at huniq ⊢
          have huniq' : ∀ j (hj : j < rest.length), j ≠ k' →
              (rest.get ⟨k', hk'⟩).speed < (rest.get ⟨j, hj⟩).speed := by
            intro j hj hne
            have := huniq (j + 1) (Nat.succ_lt_succ hj)
              (fun hc => hne (Nat.succ_injective hc))
            simpa using this
          have hs : (rest.get ⟨k', hk'⟩).speed < s.speed := by
            have := huniq 0 (Nat.succ_pos rest.length) (Nat.succ_ne_zero k').symm
            simpa using this
          simp only [apexOf]
          rw [apexFold_argmin rest k' hk' 1 (0, s.speed) (by simpa using hs) huniq']
          simp [Nat.add_comm]

end ApexLemmas

section ScanLemmas

theorem find?_range'_first (p : ℕ → Bool) (s n a : ℕ) (hs : s ≤ a) (ha : a < s + n)
    (hpa : p a = true) (hprev : ∀ i, s ≤ i → i < a → p i = false) :
    (List.range' s n).find? p = some a := by
  have hsplit : List.range' s (a - s) ++ List.range' a (n - (a - s)) = List.range' s n := by
    have := List.range'_append s (a - s) (n - (a - s)) 1
    rw [show s + 1 * (a - s) = a by omega, show n - (a - s) + (a - s) = n by omega] at this
    exact this
  rw [← hsplit, List.find?_append]
  have hnone : (List.range' s (a - s)).find? p = none := by
    rw [List.find?_eq_none]
    intro x hx
    rw [List.mem_range'] at hx
    obtain ⟨i, hi, rfl⟩ := hx
    simp only [Bool.not_eq_true, one_mul]
    exact hprev (s + i) (by omega) (by omega)
  rw [hnone]
  obtain ⟨m, hm⟩ : ∃ m, n - (a - s) = m + 1 := ⟨n - (a - s) - 1, by omega⟩
  rw [hm, List.range'_succ, List.find?_cons_of_pos _ hpa]
  rfl

theorem find?_range_first (p : ℕ → Bool) (n a : ℕ) (ha : a < n)
    (hpa : p a = true) (hprev : ∀ i, i < a → p i = false) :
    (List.range n).find? p = some a := by
  rw [List.range_eq_range']
  exact find?_range'_first p 0 n a (Nat.zero_le a) (by omega) hpa
    (fun i _ hi => hprev i hi)

theorem getD_eq_get (w : List CarData) (i : ℕ) (h : i < w.length) :
    w.getD i default = w.get ⟨i, h⟩ := by
  simp [List.getD_eq_getElem?_getD, List.getElem?_eq_getElem h]

end ScanLemmas

section KinematicsClaims

/-- C1 (amended): on a window of at least 10 samples with a unique speed
minimum at index `k`, brake above 10 exactly on [k-5, k) and throttle above
50 exactly on (k, k+5], the extraction reports the apex at `k`,
brakingDistance = 5 * metersPerSample and throttleOnDistance =
1 * metersPerSample: the throttle scan starts at the apex index itself, so
the first sample with throttle above 50 is k + 1, one step after the apex. -/
theorem C1_kinematics_roundtrip (w : List CarData) (k : ℕ)
    (_hlen : 10 ≤ w.length) (hk5 : 5 ≤ k) (hk : k + 5 < w.length)
    (huniq : ∀ j, j < w.length → j ≠ k → spd w k < spd w j)
    (hbrake : ∀ j, j < w.length →
        (10 < (w.getD j default).brake ↔ (k - 5 ≤ j ∧ j < k)))
    (hthr : ∀ j, j < w.length →
        (50 < (w.getD j default).throttle ↔ (k < j ∧ j ≤ k + 5))) :
    minSpeedIdx w = k ∧ brakingDistance w = 5 * metersPerSample ∧
      throttleOnDistance w = 1 * metersPerSample := by
  have hkw : k < w.length := by omega
  have hapex : minSpeedIdx w = k := by
    have huniq2 : ∀ j (hj : j < w.length), j ≠ k →
        (w.get ⟨k, hkw⟩).speed < (w.get ⟨j, hj⟩).speed := by
      intro j hj hne
      have := huniq j hj hne
      rwa [spd, spd, getD_eq_get w k hkw, getD_eq_get w j hj] at this
    unfold minSpeedIdx
    rw [apexOf_unique_min w k hkw huniq2]
  have hbrakeIdx : brakingStartIdx w = k - 5 := by
    unfold brakingStartIdx
    rw [hapex]
    rw [find?_range_first _ k (k - 5) (by omega)
      (by
        have := (hbrake (k - 5) (by omega)).mpr ⟨le_refl _, by omega⟩
        exact decide_eq_true this)
      (fun i hi => by
        have hiw : i < w.length := by omega
        exact decide_eq_false (fun hgt =>
          absurd ((hbrake i hiw).mp hgt) (by omega)))]
  have hthrIdx : throttleOnIdx w = k + 1 := by
    unfold throttleOnIdx
    rw [hapex]
    rw [find?_range'_first _ k (w.length - k) (k + 1) (by omega) (by omega)
      (by
        have := (hthr (k + 1) (by omega)).mpr ⟨by omega, by omega⟩
        exact decide_eq_true this)
      (fun i hle hlt => by
        have hik : i = k := by omega
        subst hik
        exact decide_eq_false (fun hgt =>
          absurd ((hthr i (by omega)).mp hgt) (by omega)))]
  refine ⟨hapex, ?_, ?_⟩
  · unfold brakingDistance
    rw [hapex, hbrakeIdx]
    have h5 : ((k - 5 : ℕ) : ℚ) = (k : ℚ) - 5 := by
      rw [Nat.cast_sub hk5]
      norm_num
    rw [h5]
    unfold metersPerSample
    ring
  · unfold throttleOnDistance
    rw [hapex, hthrIdx]
    push_cast
    unfold metersPerSample
    ring

/-- Synthetic telemetry window with the C1 shape: unique speed minimum at
index 5, brake above 10 exactly on [0, 5), throttle above 50 exactly on
(5, 10]. -/
def c1w : List CarData :=
  [⟨100, 0, 20⟩, ⟨90, 0, 20⟩, ⟨80, 0, 20⟩, ⟨70, 0, 20⟩, ⟨60, 0, 20⟩,
   ⟨50, 0, 0⟩, ⟨60, 80, 0⟩, ⟨70, 80, 0⟩, ⟨80, 80, 0⟩, ⟨90, 80, 0⟩,
   ⟨100, 80, 0⟩]

/-- C1 counterexample: the window `c1w` satisfies every hypothesis of the
claim at k = 5, the apex and brakingDistance come out as claimed, but
throttleOnDistance is 1 * metersPerSample, not 5 * metersPerSample. -/
theorem C1_counterexample :
    10 ≤ c1w.length ∧ 5 ≤ 5 ∧ 5 + 5 < c1w.length ∧
    (∀ j, j < c1w.length → j ≠ 5 → spd c1w 5 < spd c1w j) ∧
    (∀ j, j < c1w.length →
        (10 < (c1w.getD j default).brake ↔ (5 - 5 ≤ j ∧ j < 5))) ∧
    (∀ j, j < c1w.length →
        (50 < (c1w.getD j default).throttle ↔ (5 < j ∧ j ≤ 5 + 5))) ∧
    minSpeedIdx c1w = 5 ∧ brakingDistance c1w = 5 * metersPerSample ∧
    ¬ throttleOnDistance c1w = 5 * metersPerSample := by
  have h1 : minSpeedIdx c1w = 5 := by decide
  have h2 : brakingStartIdx c1w = 0 := by decide
  have h3 : throttleOnIdx c1w = 6 := by decide
  refine ⟨by decide, by decide, by decide, by decide, by decide, by decide,
    h1, ?_, ?_⟩
  · unfold brakingDistance metersPerSample
    rw [h1, h2]
    norm_num
  · unfold throttleOnDistance metersPerSample
    rw [h1, h3]
    norm_num

/-- Witness for C1: the amended statement evaluated on `c1w`. -/
theorem C1_kinematics_roundtrip_witness :
    minSpeedIdx c1w = 5 ∧ brakingDistance c1w = 5 * metersPerSample ∧
      throttleOnDistance c1w = 1 * metersPerSample :=
  C1_kinematics_roundtrip c1w 5 (by decide) (by decide) (by decide)
    (by decide) (by decide) (by decide)

/-- C3 (amended): when no sample strictly before the apex has brake above 10,
the braking start index defaults to the window start (index 0) and
brakingDistance equals minSpeedIdx * metersPerSample; it is zero exactly when
the apex sits at the window start, not in general. -/
theorem C3_no_braking_default (w : List CarData)
    (hnb : ∀ j, j < minSpeedIdx w → ¬ 10 < (w.getD j default).brake) :
    brakingStartIdx w = 0 ∧
      brakingDistance w = (minSpeedIdx w : ℚ) * metersPerSample := by
  have hidx : brakingStartIdx w = 0 := by
    unfold brakingStartIdx
    have hnone : (List.range (minSpeedIdx w)).find?
        (fun i => decide (10 < (w.getD i default).brake)) = none := by
      rw [List.find?_eq_none]
      intro x hx
      rw [List.mem_range] at hx
      simp only [Bool.not_eq_true]
      exact decide_eq_false (hnb x hx)
    rw [hnone]
  refine ⟨hidx, ?_⟩
  unfold brakingDistance
  rw [hidx]
  push_cast
  ring

/-- Synthetic window for C3: speed strictly decreasing (apex at the last
index, 9) and brake everywhere 0. -/
def c3w : List CarData :=
  [⟨100, 0, 0⟩, ⟨95, 0, 0⟩, ⟨90, 0, 0⟩, ⟨85, 0, 0⟩, ⟨80, 0, 0⟩,
   ⟨75, 0, 0⟩, ⟨70, 0, 0⟩, ⟨65, 0, 0⟩, ⟨60, 0, 0⟩, ⟨55, 0, 0⟩]

/-- C3 counterexample: on `c3w` no sample before the apex brakes above 10 and
the braking start index is the window start, yet brakingDistance is
9 * 27 = 243, not 0 as the claim states. -/
theorem C3_counterexample :
    (∀ j, j < minSpeedIdx c3w → ¬ 10 < (c3w.getD j default).brake) ∧
    brakingStartIdx c3w = 0 ∧ brakingDistance c3w ≠ 0 := by
  have h1 : minSpeedIdx c3w = 9 := by decide
  have h2 : brakingStartIdx c3w = 0 := by decide
  refine ⟨by decide, h2, ?_⟩
  unfold brakingDistance metersPerSample
  rw [h1, h2]
  norm_num

/-- Witness for C3: the amended statement evaluated on `c3w`. -/
theorem C3_no_braking_default_witness :
    brakingStartIdx c3w = 0 ∧
      brakingDistance c3w = (minSpeedIdx c3w : ℚ) * metersPerSample :=
  C3_no_braking_default c3w (by decide)

end KinematicsClaims

section WindowExtraction

/-- Window extraction of analyzeCorner: the corner position is estimated as
the fraction selectedCorner / 15 of the lap, and the window spans
floor(length * 0.08) samples on each side of that index; the slice start is
clamped at 0 (truncated subtraction) and the end at length - 1 (min),
mirroring Math.max / Math.min in the source. -/
def cornerWindow (carData : List CarData) (selectedCorner : ℕ) : List CarData :=
  let cornerIndex := ⌊(carData.length : ℚ) * ((selectedCorner : ℚ) / 15)⌋₊
  let windowSize := ⌊(carData.length : ℚ) * (8 / 100)⌋₊
  let startIdx := cornerIndex - windowSize
  let endIdx := min (carData.length - 1) (cornerIndex + windowSize)
  (carData.drop startIdx).take (endIdx + 1 - startIdx)

/-- Per-driver corner metrics record assembled by analyzeCorner. -/
structure DriverCornerData where
  entrySpeed : ℚ
  minSpeed : ℚ
  exitSpeed : ℚ
  brakingDist : ℚ
  throttleOnDist : ℚ
  trace : List (ℚ × ℚ)
deriving DecidableEq, Repr

/-- Corner analysis of one driver: the driver is skipped when no car data
came back or when the extracted window has fewer than 10 samples; otherwise
the metrics are computed from the window. -/
def analyzeCornerDriver (carData : List CarData) (selectedCorner : ℕ) :
    Option DriverCornerData :=
  if carData.length = 0 then none
  else
    let w := cornerWindow carData selectedCorner
    if w.length < 10 then none
    else some ⟨entrySpeed w, (apexOf w).2, exitSpeed w,
      brakingDistance w, throttleOnDistance w, speedTrace w⟩

/-- The per-corner comparison set: one result per retained driver, in input
order (the source pushes into results inside a for loop). -/
def analyzeCornerAll (datas : List (ℕ × List CarData)) (selectedCorner : ℕ) :
    List (ℕ × DriverCornerData) :=
  datas.filterMap (fun p =>
    (analyzeCornerDriver p.2 selectedCorner).map (fun m => (p.1, m)))

/-- C5: a driver whose extracted window has fewer than 10 samples is skipped
(soft omission: the result is none, no error value exists), a driver whose
window has at least 10 samples is retained, and the comparison set consists
of exactly the drivers with windows of at least 10 samples, in input order. -/
theorem C5_window_guard (carData : List CarData) (selectedCorner : ℕ)
    (datas : List (ℕ × List CarData)) :
    (analyzeCornerDriver carData selectedCorner = none ↔
      (cornerWindow carData selectedCorner).length < 10) ∧
    ((analyzeCornerAll datas selectedCorner).map Prod.fst =
      (datas.filter (fun p =>
        decide (10 ≤ (cornerWindow p.2 selectedCorner).length))).map Prod.fst) := by
  have hiff : ∀ cd : List CarData, analyzeCornerDriver cd selectedCorner = none ↔
      (cornerWindow cd selectedCorner).length < 10 := by
    intro cd
    unfold analyzeCornerDriver
    by_cases h0 : cd.length = 0
    · rw [if_pos h0]
      have hcd : cd = [] := List.length_eq_zero.mp h0
      subst hcd
      simp [cornerWindow]
    · rw [if_neg h0]
      by_cases hw : (cornerWindow cd selectedCorner).length < 10
      · simp [hw]
      · simp [hw]
  refine ⟨hiff carData, ?_⟩
  induction datas with
  | nil => rfl
  | cons p rest ih =>
      by_cases hw : 10 ≤ (cornerWindow p.2 selectedCorner).length
      · have hsome : analyzeCornerDriver p.2 selectedCorner ≠ none := fun hc =>
          absurd ((hiff p.2).mp hc) (by omega)
        obtain ⟨m, hm⟩ := Option.ne_none_iff_exists'.mp hsome
        simp only [analyzeCornerAll, List.filterMap_cons, hm, Option.map_some',
          List.filter_cons, List.map_cons]
        rw [if_pos (by simpa using hw)]
        simp only [List.map_cons]
        exact congrArg (List.cons p.1) ih
      · have hnone : analyzeCornerDriver p.2 selectedCorner = none :=
          (hiff p.2).mpr (by omega)
        simp only [analyzeCornerAll, List.filterMap_cons, hnone, Option.map_none',
          List.filter_cons]
        rw [if_neg (by simpa using hw)]
        exact ih

end WindowExtraction

section Alignment

/-- A 2D track position sample (the (0, 0) sentinel samples are filtered out
by the caller before alignment). -/
structure TrackPoint where
  x : ℚ
  y : ℚ
deriving DecidableEq, Repr, Inhabited

/-- Binary logarithm on naturals, by explicit fuel so that it reduces in the
kernel; lg2 n is the position of the highest set bit (0 for n = 0 or 1). -/
def lg2go : ℕ → ℕ → ℕ
  | 0, _ => 0
  | fuel + 1, n => if 2 ≤ n then lg2go fuel (n / 2) + 1 else 0

def lg2 (n : ℕ) : ℕ := lg2go n n

/-- Value of a binary floating-point representation: mantissa times 2 to the
exponent. -/
def dval (x : ℕ × ℤ) : ℚ := (x.1 : ℚ) * (2 : ℚ) ^ x.2

/-- Exponent e of the IEEE quotient a / b: the unique e with
2 ^ e <= a / b < 2 ^ (e + 1) (for a, b positive). -/
def flDivExp (a b : ℕ) : ℤ :=
  let d : ℤ := (lg2 a : ℤ) - (lg2 b : ℤ)
  if b * 2 ^ d.toNat ≤ a * 2 ^ (-d).toNat then d else d - 1

/-- IEEE-754 binary64 correctly-rounded quotient a / b (round to nearest,
ties to even) for naturals, as mantissa and exponent: the quotient is scaled
into [2^52, 2^53) and rounded on the remainder. JavaScript's `/` on numbers
is exactly this computation. -/
def flDivP (a b : ℕ) : ℕ × ℤ :=
  let e := flDivExp a b
  let n : ℕ := a * 2 ^ (52 - e).toNat
  let den : ℕ := b * 2 ^ (e - 52).toNat
  let q := n / den
  let r := n % den
  (q + (if den < 2 * r then 1 else if 2 * r < den then 0 else q % 2), e - 52)

/-- IEEE-754 binary64 correctly-rounded product of a natural and a float:
the exact integer product of the mantissas is rounded back to 53 bits when
it overflows them. JavaScript's `*` with a small-integer left operand is
exactly this computation. -/
def flMulP (k : ℕ) (x : ℕ × ℤ) : ℕ × ℤ :=
  let p := k * x.1
  if lg2 p ≤ 52 then (p, x.2)
  else
    let s := lg2 p - 52
    let q := p / 2 ^ s
    let r := p % 2 ^ s
    (q + (if 2 ^ s < 2 * r then 1 else if 2 * r < 2 ^ s then 0 else q % 2),
      x.2 + s)

/-- Math.floor of a nonnegative float representation, exactly. -/
def floorD (x : ℕ × ℤ) : ℕ :=
  if 0 ≤ x.2 then x.1 * 2 ^ x.2.toNat else x.1 / 2 ^ (-x.2).toNat

/-- Center index chosen by fetchDriverTraces:
Math.floor(validData.length * (corner.index / fullTrackPoints.length)), with
the division and the multiplication each correctly rounded to the nearest
IEEE binary64 value, as JavaScript numbers are. The nRef = 0 guard covers
the unreachable empty-reference case (JS would produce NaN there). -/
def alignCenter (cornerIdx nRef nTarget : ℕ) : ℕ :=
  if nRef = 0 then 0
  else floorD (flMulP nTarget (flDivP cornerIdx nRef))

theorem lg2go_spec (fuel : ℕ) : ∀ n, 1 ≤ n → n ≤ fuel →
    2 ^ lg2go fuel n ≤ n ∧ n < 2 ^ (lg2go fuel n + 1) := by
  induction fuel with
  | zero =>
      intro n h1 h2
      omega
  | succ f ih =>
      intro n h1 h2
      by_cases h : 2 ≤ n
      · have hrec := ih (n / 2) (by omega) (by omega)
        have heq : lg2go (f + 1) n = lg2go f (n / 2) + 1 := by
          simp [lg2go, h]
        rw [heq]
        obtain ⟨ha, hb⟩ := hrec
        have e1 : 2 ^ (lg2go f (n / 2) + 1) = 2 * 2 ^ lg2go f (n / 2) := by ring
        have e2 : 2 ^ (lg2go f (n / 2) + 1 + 1) = 2 * 2 ^ (lg2go f (n / 2) + 1) := by
          ring
        rw [e1] at hb
        rw [e1, e2]
        omega
      · have heq : lg2go (f + 1) n = 0 := by
          simp [lg2go, h]
        rw [heq]
        norm_num
        omega

theorem lg2_spec (n : ℕ) (h : 1 ≤ n) : 2 ^ lg2 n ≤ n ∧ n < 2 ^ (lg2 n + 1) :=
  lg2go_spec n n h (le_refl n)

theorem dval_nonneg (x : ℕ × ℤ) : 0 ≤ dval x := by
  unfold dval
  positivity

/-- Rounding a scaled quotient on its remainder (round to nearest, ties to
even) moves it by at most one half. -/
theorem round_half (n den : ℕ) (hden : 0 < den) :
    |((n / den + (if den < 2 * (n % den) then 1
        else if 2 * (n % den) < den then 0 else n / den % 2) : ℕ) : ℚ)
      - (n : ℚ) / (den : ℚ)| ≤ 1 / 2 := by
  have hdQ : (0 : ℚ) < (den : ℚ) := by positivity
  have hmod := Nat.div_add_mod n den
  have hx : (n : ℚ) / den = ((n / den : ℕ) : ℚ) + ((n % den : ℕ) : ℚ) / den := by
    field_simp
    have hc : ((den * (n / den) + n % den : ℕ) : ℚ) = (n : ℚ) := by
      rw [hmod]
    push_cast at hc
    linarith
  have hrQ : ((n % den : ℕ) : ℚ) < den := by
    exact_mod_cast Nat.mod_lt n hden
  have hr0 : (0 : ℚ) ≤ ((n % den : ℕ) : ℚ) := by positivity
  rw [hx, abs_le]
  by_cases h1 : den < 2 * (n % den)
  · rw [if_pos h1]
    have h1Q : (den : ℚ) < 2 * ((n % den : ℕ) : ℚ) := by exact_mod_cast h1
    have hhalf : 1 / 2 < ((n % den : ℕ) : ℚ) / den := by
      rw [div_lt_div_iff₀ (by norm_num) hdQ]
      linarith
    have hlt1 : ((n % den : ℕ) : ℚ) / den < 1 := by
      rw [div_lt_one hdQ]
      exact hrQ
    push_cast
    constructor <;> nlinarith
  · rw [if_neg h1]
    by_cases h2 : 2 * (n % den) < den
    · rw [if_pos h2]
      have h2Q : 2 * ((n % den : ℕ) : ℚ) < (den : ℚ) := by exact_mod_cast h2
      have hhalf : ((n % den : ℕ) : ℚ) / den < 1 / 2 := by
        rw [div_lt_div_iff₀ hdQ (by norm_num)]
        linarith
      have hge0 : (0 : ℚ) ≤ ((n % den : ℕ) : ℚ) / den := by positivity
      push_cast
      constructor <;> nlinarith
    · rw [if_neg h2]
      have heqn : 2 * (n % den) = den := by omega
      have heqQ : ((n % den : ℕ) : ℚ) / den = 1 / 2 := by
        have hd2 : (den : ℚ) = 2 * ((n % den : ℕ) : ℚ) := by exact_mod_cast heqn.symm
        have hpos : (0 : ℚ) < ((n % den : ℕ) : ℚ) := by
          have h0 : 0 < n % den := by omega
          exact_mod_cast h0
        rw [hd2]
        field_simp
        ring
      rw [heqQ]
      rcases Nat.mod_two_eq_zero_or_one (n / den) with hpar | hpar <;>
        rw [hpar] <;> push_cast <;> constructor <;> nlinarith

/-- A two-power with integer exponent, split over the sign of the exponent
into a quotient of natural powers. -/
theorem two_zpow_toNat (c : ℤ) :
    (2 : ℚ) ^ c = ((2 ^ c.toNat : ℕ) : ℚ) / ((2 ^ (-c).toNat : ℕ) : ℚ) := by
  rcases le_or_lt 0 c with h | h
  · obtain ⟨k, rfl⟩ : ∃ k : ℕ, c = (k : ℤ) := ⟨c.toNat, by omega⟩
    rw [show ((k : ℤ)).toNat = k from by omega,
      show (-(k : ℤ)).toNat = 0 from by omega]
    push_cast
    rw [zpow_natCast]
    norm_num
  · obtain ⟨k, rfl⟩ : ∃ k : ℕ, c = -(k : ℤ) := ⟨(-c).toNat, by omega⟩
    rw [show (-(k : ℤ)).toNat = 0 from by omega,
      show (-(-(k : ℤ))).toNat = k from by omega]
    push_cast
    rw [zpow_neg, zpow_natCast]
    norm_num

/-- The selected quotient exponent is a lower bound: 2 ^ flDivExp a b is at
most a / b. -/
theorem flDivExp_le (a b : ℕ) (ha : 0 < a) (hb : 0 < b) :
    (2 : ℚ) ^ flDivExp a b ≤ (a : ℚ) / b := by
  have hbQ : (0 : ℚ) < (b : ℚ) := by positivity
  unfold flDivExp
  by_cases hc : b * 2 ^ ((lg2 a : ℤ) - (lg2 b : ℤ)).toNat ≤
      a * 2 ^ (-((lg2 a : ℤ) - (lg2 b : ℤ))).toNat
  · rw [if_pos hc]
    rw [two_zpow_toNat, div_le_div_iff₀ (by positivity) hbQ]
    have hcQ : ((b * 2 ^ ((lg2 a : ℤ) - (lg2 b : ℤ)).toNat : ℕ) : ℚ) ≤
        ((a * 2 ^ (-((lg2 a : ℤ) - (lg2 b : ℤ))).toNat : ℕ) : ℚ) := by
      exact_mod_cast hc
    push_cast at hcQ ⊢
    linarith
  · rw [if_neg hc]
    have hA := (lg2_spec a ha).1
    have hB := (lg2_spec b hb).2
    have hkey : (2 : ℚ) ^ ((lg2 a : ℤ) - (lg2 b : ℤ) - 1) =
        ((2 ^ lg2 a : ℕ) : ℚ) / ((2 ^ (lg2 b + 1) : ℕ) : ℚ) := by
      rw [show (lg2 a : ℤ) - (lg2 b : ℤ) - 1
          = (lg2 a : ℤ) - ((lg2 b + 1 : ℕ) : ℤ) from by push_cast; ring]
      rw [zpow_sub₀ (by norm_num : (2 : ℚ) ≠ 0)]
      rw [show ((lg2 a : ℕ) : ℤ) = ((lg2 a : ℕ) : ℤ) from rfl]
      rw [zpow_natCast, zpow_natCast]
      push_cast
      ring
    rw [hkey, div_le_div_iff₀ (by positivity) hbQ]
    have h1 : ((2 ^ lg2 a : ℕ) : ℚ) ≤ (a : ℚ) := by exact_mod_cast hA
    have h2 : (b : ℚ) ≤ ((2 ^ (lg2 b + 1) : ℕ) : ℚ) := by
      exact_mod_cast le_of_lt hB
    calc ((2 ^ lg2 a : ℕ) : ℚ) * b ≤ (a : ℚ) * b :=
          mul_le_mul_of_nonneg_right h1 (le_of_lt hbQ)
      _ ≤ (a : ℚ) * ((2 ^ (lg2 b + 1) : ℕ) : ℚ) :=
          mul_le_mul_of_nonneg_left h2 (by positivity)

/-- The rounded quotient is within relative error 2 ^ -53 of the exact
quotient (round to nearest at 53 bits of significand). -/
theorem flDivP_err (a b : ℕ) (ha : 0 < a) (hb : 0 < b) :
    |dval (flDivP a b) - (a : ℚ) / b| ≤ ((a : ℚ) / b) * (2 : ℚ) ^ (-53 : ℤ) := by
  have hbQ : (0 : ℚ) < (b : ℚ) := by positivity
  set e := flDivExp a b with he
  set nn : ℕ := a * 2 ^ (52 - e).toNat with hnn
  set den : ℕ := b * 2 ^ (e - 52).toNat with hden
  have hdenPos : 0 < den := by
    rw [hden]
    exact Nat.mul_pos hb (Nat.pos_pow_of_pos _ (by norm_num))
  have hscale : (nn : ℚ) / (den : ℚ) = ((a : ℚ) / b) * (2 : ℚ) ^ ((52 : ℤ) - e) := by
    rw [two_zpow_toNat ((52 : ℤ) - e),
      show (-((52 : ℤ) - e)).toNat = (e - 52).toNat from by omega]
    rw [hnn, hden]
    push_cast
    have hp1 : ((2 : ℚ)) ^ (52 - e).toNat ≠ 0 := by positivity
    have hp2 : ((2 : ℚ)) ^ (e - 52).toNat ≠ 0 := by positivity
    field_simp
  have hab : (a : ℚ) / b = ((nn : ℚ) / den) * (2 : ℚ) ^ (e - 52 : ℤ) := by
    rw [hscale, mul_assoc, ← zpow_add₀ (by norm_num : (2 : ℚ) ≠ 0),
      show (52 : ℤ) - e + (e - 52) = 0 from by ring, zpow_zero, mul_one]
  set M : ℕ := nn / den + (if den < 2 * (nn % den) then 1
    else if 2 * (nn % den) < den then 0 else nn / den % 2) with hM
  have hround := round_half nn den hdenPos
  rw [← hM] at hround
  have hval : dval (flDivP a b) = (M : ℚ) * (2 : ℚ) ^ (e - 52 : ℤ) := rfl
  have hpow : (0 : ℚ) < (2 : ℚ) ^ (e - 52 : ℤ) := by positivity
  rw [hval, hab,
    show (M : ℚ) * (2 : ℚ) ^ (e - 52 : ℤ)
        - ((nn : ℚ) / den) * (2 : ℚ) ^ (e - 52 : ℤ)
      = ((M : ℚ) - (nn : ℚ) / den) * (2 : ℚ) ^ (e - 52 : ℤ) from by ring,
    abs_mul, abs_of_pos hpow]
  calc |(M : ℚ) - (nn : ℚ) / den| * (2 : ℚ) ^ (e - 52 : ℤ)
      ≤ (1 / 2) * (2 : ℚ) ^ (e - 52 : ℤ) :=
        mul_le_mul_of_nonneg_right hround (le_of_lt hpow)
    _ = (2 : ℚ) ^ (e : ℤ) * (2 : ℚ) ^ (-53 : ℤ) := by
        rw [← zpow_add₀ (by norm_num : (2 : ℚ) ≠ 0),
          show (e : ℤ) + (-53) = (-1) + (e - 52) from by ring,
          zpow_add₀ (by norm_num : (2 : ℚ) ≠ 0)]
        try norm_num
    _ ≤ ((a : ℚ) / b) * (2 : ℚ) ^ (-53 : ℤ) :=
        mul_le_mul_of_nonneg_right (flDivExp_le a b ha hb) (by positivity)
    _ = ((nn : ℚ) / den * (2 : ℚ) ^ (e - 52 : ℤ)) * (2 : ℚ) ^ (-53 : ℤ) := by
        rw [← hab]

/-- The rounded product of a natural and a float is within relative error
2 ^ -53 of the exact product. -/
theorem flMulP_err (k : ℕ) (x : ℕ × ℤ) :
    |dval (flMulP k x) - (k : ℚ) * dval x| ≤
      (k : ℚ) * dval x * (2 : ℚ) ^ (-53 : ℤ) := by
  have hkd0 : (k : ℚ) * dval x = ((k * x.1 : ℕ) : ℚ) * (2 : ℚ) ^ x.2 := by
    unfold dval
    push_cast
    ring
  unfold flMulP
  by_cases hL : lg2 (k * x.1) ≤ 52
  · rw [if_pos hL]
    have hz : dval (k * x.1, x.2) = (k : ℚ) * dval x := by
      rw [hkd0]
      rfl
    rw [hz, sub_self, abs_zero]
    have : (0 : ℚ) ≤ (k : ℚ) * dval x := by
      have := dval_nonneg x
      positivity
    positivity
  · rw [if_neg hL]
    set p := k * x.1 with hp
    set s := lg2 p - 52 with hs
    have hppos : 1 ≤ p := by
      by_contra hc
      have hp0 : p = 0 := by omega
      rw [hp0] at hL
      exact hL (by norm_num [lg2, lg2go])
    have hdenPos : 0 < 2 ^ s := Nat.pos_pow_of_pos _ (by norm_num)
    set M : ℕ := p / 2 ^ s + (if 2 ^ s < 2 * (p % 2 ^ s) then 1
      else if 2 * (p % 2 ^ s) < 2 ^ s then 0 else p / 2 ^ s % 2) with hM
    have hround := round_half p (2 ^ s) hdenPos
    rw [← hM] at hround
    have hval : dval (M, x.2 + (s : ℤ)) = (M : ℚ) * (2 : ℚ) ^ (x.2 + (s : ℤ)) := rfl
    have hsplit : (2 : ℚ) ^ (x.2 + (s : ℤ))
        = (2 : ℚ) ^ x.2 * ((2 ^ s : ℕ) : ℚ) := by
      rw [zpow_add₀ (by norm_num : (2 : ℚ) ≠ 0)]
      push_cast
      rw [zpow_natCast]
    have hkd : (k : ℚ) * dval x
        = ((p : ℚ) / ((2 ^ s : ℕ) : ℚ)) * (2 : ℚ) ^ (x.2 + (s : ℤ)) := by
      rw [hkd0, hsplit, hp]
      have hne : ((2 ^ s : ℕ) : ℚ) ≠ 0 := by positivity
      field_simp
      ring
    show |dval (M, x.2 + (s : ℤ)) - (k : ℚ) * dval x| ≤ _
    rw [hval, hkd,
      show (M : ℚ) * (2 : ℚ) ^ (x.2 + (s : ℤ))
          - ((p : ℚ) / ((2 ^ s : ℕ) : ℚ)) * (2 : ℚ) ^ (x.2 + (s : ℤ))
        = ((M : ℚ) - (p : ℚ) / ((2 ^ s : ℕ) : ℚ)) * (2 : ℚ) ^ (x.2 + (s : ℤ))
        from by ring,
      abs_mul, abs_of_pos (by positivity : (0:ℚ) < (2 : ℚ) ^ (x.2 + (s : ℤ)))]
    have hplow : ((2 ^ (s + 52) : ℕ) : ℚ) ≤ (p : ℚ) := by
      have hsp := (lg2_spec p hppos).1
      have hlg : lg2 p = s + 52 := by omega
      rw [hlg] at hsp
      exact_mod_cast hsp
    calc |(M : ℚ) - (p : ℚ) / ((2 ^ s : ℕ) : ℚ)| * (2 : ℚ) ^ (x.2 + (s : ℤ))
        ≤ (1 / 2) * (2 : ℚ) ^ (x.2 + (s : ℤ)) :=
          mul_le_mul_of_nonneg_right hround (by positivity)
      _ = ((2 ^ (s + 52) : ℕ) : ℚ) * (2 : ℚ) ^ x.2 * (2 : ℚ) ^ (-53 : ℤ) := by
          have h2 : (2 : ℚ) ≠ 0 := by norm_num
          rw [show ((2 ^ (s + 52) : ℕ) : ℚ) = (2 : ℚ) ^ ((s + 52 : ℕ) : ℤ) from by
            norm_cast,
            ← zpow_add₀ h2, ← zpow_add₀ h2,
            show (1 / 2 : ℚ) = (2 : ℚ) ^ (-1 : ℤ) from by norm_num,
            ← zpow_add₀ h2]
          congr 1
          push_cast
          ring
      _ ≤ (p : ℚ) * (2 : ℚ) ^ x.2 * (2 : ℚ) ^ (-53 : ℤ) := by
          apply mul_le_mul_of_nonneg_right _ (by positivity)
          exact mul_le_mul_of_nonneg_right hplow (by positivity)
      _ = (k : ℚ) * dval x * (2 : ℚ) ^ (-53 : ℤ) := by
          rw [hkd0]
      _ = (p : ℚ) / ((2 ^ s : ℕ) : ℚ) * (2 : ℚ) ^ (x.2 + (s : ℤ))
            * (2 : ℚ) ^ (-53 : ℤ) := by
          rw [← hkd]

/-- floorD computes the natural floor of the represented value. -/
theorem floorD_eq (x : ℕ × ℤ) : floorD x = ⌊dval x⌋₊ := by
  unfold floorD dval
  rcases le_or_lt 0 x.2 with h | h
  · rw [if_pos h]
    obtain ⟨k, hk⟩ : ∃ k : ℕ, x.2 = (k : ℤ) := ⟨x.2.toNat, by omega⟩
    rw [hk, zpow_natCast, show ((k : ℤ)).toNat = k from by omega,
      show (x.1 : ℚ) * (2 : ℚ) ^ k = ((x.1 * 2 ^ k : ℕ) : ℚ) from by push_cast; ring,
      Nat.floor_natCast]
  · rw [if_neg (by omega)]
    obtain ⟨k, hk⟩ : ∃ k : ℕ, x.2 = -(k : ℤ) := ⟨(-x.2).toNat, by omega⟩
    rw [hk, show (-(-(k : ℤ))).toNat = k from by omega, zpow_neg, zpow_natCast,
      show (x.1 : ℚ) * ((2 : ℚ) ^ k)⁻¹ = (x.1 : ℚ) / ((2 ^ k : ℕ) : ℚ)
        from by push_cast; ring,
      Nat.floor_div_nat, Nat.floor_natCast]

/-- Window extracted around the aligned center: floor(length * 0.08) samples
on each side, clamped to the array bounds. -/
def alignWindow (validData : List TrackPoint) (cornerIdx nRef : ℕ) :
    List TrackPoint :=
  let segmentSize := ⌊(validData.length : ℚ) * (8 / 100)⌋₊
  let centerIdx := alignCenter cornerIdx nRef validData.length
  let startIdx := centerIdx - segmentSize
  let endIdx := min (validData.length - 1) (centerIdx + segmentSize)
  (validData.drop startIdx).take (endIdx + 1 - startIdx)

/-- Composed error bound: the float value of nT * (i / nRef) is within
relative error 2 ^ -52 + 2 ^ -106 of the exact rational nT * (i / nRef). -/
theorem alignVal_err (i nRef nT : ℕ) (hi : 0 < i) (hN : 0 < nRef) :
    |dval (flMulP nT (flDivP i nRef)) - (nT : ℚ) * ((i : ℚ) / nRef)| ≤
      ((nT : ℚ) * ((i : ℚ) / nRef)) *
        ((2 : ℚ) ^ (-52 : ℤ) + (2 : ℚ) ^ (-106 : ℤ)) := by
  set q : ℚ := (i : ℚ) / nRef with hq
  set x := flDivP i nRef with hx
  set y : ℚ := dval x with hy
  have hqpos : 0 < q := by rw [hq]; positivity
  have hε : (0 : ℚ) < (2 : ℚ) ^ (-53 : ℤ) := by positivity
  have h1 : |y - q| ≤ q * (2 : ℚ) ^ (-53 : ℤ) := flDivP_err i nRef hi hN
  have h2 : |dval (flMulP nT x) - (nT : ℚ) * y| ≤
      (nT : ℚ) * y * (2 : ℚ) ^ (-53 : ℤ) := flMulP_err nT x
  have hT : (0 : ℚ) ≤ (nT : ℚ) := by positivity
  have hyub : y ≤ q * (1 + (2 : ℚ) ^ (-53 : ℤ)) := by
    have hb := (abs_le.mp h1).2
    nlinarith
  have habs : |(nT : ℚ) * y - (nT : ℚ) * q| = (nT : ℚ) * |y - q| := by
    rw [← mul_sub, abs_mul, abs_of_nonneg hT]
  have h3 : |dval (flMulP nT x) - (nT : ℚ) * q| ≤
      (nT : ℚ) * y * (2 : ℚ) ^ (-53 : ℤ)
        + (nT : ℚ) * (q * (2 : ℚ) ^ (-53 : ℤ)) := by
    have htri := abs_sub_le (dval (flMulP nT x)) ((nT : ℚ) * y) ((nT : ℚ) * q)
    have hmul : (nT : ℚ) * |y - q| ≤ (nT : ℚ) * (q * (2 : ℚ) ^ (-53 : ℤ)) :=
      mul_le_mul_of_nonneg_left h1 hT
    rw [habs] at htri
    linarith
  have h4 : (nT : ℚ) * y * (2 : ℚ) ^ (-53 : ℤ) ≤
      (nT : ℚ) * (q * (1 + (2 : ℚ) ^ (-53 : ℤ))) * (2 : ℚ) ^ (-53 : ℤ) := by
    apply mul_le_mul_of_nonneg_right _ (le_of_lt hε)
    exact mul_le_mul_of_nonneg_left hyub hT
  have e1 : (2 : ℚ) ^ (-53 : ℤ) * (2 : ℚ) ^ (-53 : ℤ) = (2 : ℚ) ^ (-106 : ℤ) := by
    rw [← zpow_add₀ (by norm_num : (2 : ℚ) ≠ 0)]
    norm_num
  have e2 : (2 : ℚ) ^ (-53 : ℤ) + (2 : ℚ) ^ (-53 : ℤ) = (2 : ℚ) ^ (-52 : ℤ) := by
    rw [show (-52 : ℤ) = -53 + 1 from by ring,
      zpow_add₀ (by norm_num : (2 : ℚ) ≠ 0)]
    ring
  have hεsum : (1 + (2 : ℚ) ^ (-53 : ℤ)) * (2 : ℚ) ^ (-53 : ℤ)
        + (2 : ℚ) ^ (-53 : ℤ)
      = (2 : ℚ) ^ (-52 : ℤ) + (2 : ℚ) ^ (-106 : ℤ) := by
    have hr : (1 + (2 : ℚ) ^ (-53 : ℤ)) * (2 : ℚ) ^ (-53 : ℤ)
          + (2 : ℚ) ^ (-53 : ℤ)
        = ((2 : ℚ) ^ (-53 : ℤ) + (2 : ℚ) ^ (-53 : ℤ))
          + (2 : ℚ) ^ (-53 : ℤ) * (2 : ℚ) ^ (-53 : ℤ) := by ring
    rw [hr, e1, e2]
  calc |dval (flMulP nT x) - (nT : ℚ) * q|
      ≤ (nT : ℚ) * y * (2 : ℚ) ^ (-53 : ℤ)
          + (nT : ℚ) * (q * (2 : ℚ) ^ (-53 : ℤ)) := h3
    _ ≤ (nT : ℚ) * (q * (1 + (2 : ℚ) ^ (-53 : ℤ))) * (2 : ℚ) ^ (-53 : ℤ)
          + (nT : ℚ) * (q * (2 : ℚ) ^ (-53 : ℤ)) := by linarith
    _ = (nT : ℚ) * q * ((1 + (2 : ℚ) ^ (-53 : ℤ)) * (2 : ℚ) ^ (-53 : ℤ)
          + (2 : ℚ) ^ (-53 : ℤ)) := by ring
    _ = (nT : ℚ) * q * ((2 : ℚ) ^ (-52 : ℤ) + (2 : ℚ) ^ (-106 : ℤ)) := by
        rw [hεsum]

/-- C4 (amended): the aligner places the window center at the IEEE-binary64
evaluation of floor(Ntarget * (cornerIdx / Nref)); for cornerIdx * Ntarget
up to 2 ^ 51 * Nref this is within one of the exact natural quotient
cornerIdx * Ntarget / Nref, and when Nref = Ntarget the center is the corner
index itself or that index minus one — float rounding can lose exactness,
as at cornerIdx = 30, Nref = Ntarget = 103, where the center is 29. -/
theorem C4_alignment (i nRef nT : ℕ) (hi : 0 < i) (hN : 0 < nRef)
    (hB : i * nT ≤ 2 ^ 51 * nRef) :
    (i * nT / nRef ≤ alignCenter i nRef nT + 1 ∧
      alignCenter i nRef nT ≤ i * nT / nRef + 1) ∧
    (nRef = nT → alignCenter i nRef nT = i ∨ alignCenter i nRef nT = i - 1) := by
  set v : ℚ := (nT : ℚ) * ((i : ℚ) / nRef) with hv
  set y : ℚ := dval (flMulP nT (flDivP i nRef)) with hy
  have hNQ : (0 : ℚ) < (nRef : ℚ) := by positivity
  have hvnn : (0 : ℚ) ≤ v := by rw [hv]; positivity
  have hynn : (0 : ℚ) ≤ y := dval_nonneg _
  have hvle : v ≤ (2 : ℚ) ^ (51 : ℕ) := by
    rw [hv, mul_div_assoc']
    rw [div_le_iff₀ hNQ]
    calc (nT : ℚ) * i = ((i * nT : ℕ) : ℚ) := by push_cast; ring
      _ ≤ ((2 ^ 51 * nRef : ℕ) : ℚ) := by exact_mod_cast hB
      _ = (2 : ℚ) ^ (51 : ℕ) * nRef := by push_cast; ring
  have herr := alignVal_err i nRef nT hi hN
  rw [← hv, ← hy] at herr
  have hδ : (0 : ℚ) < (2 : ℚ) ^ (-52 : ℤ) + (2 : ℚ) ^ (-106 : ℤ) := by positivity
  have hc : (2 : ℚ) ^ (51 : ℕ) * ((2 : ℚ) ^ (-52 : ℤ) + (2 : ℚ) ^ (-106 : ℤ))
      < 1 := by
    rw [show (-52 : ℤ) = -((52 : ℕ) : ℤ) from by norm_num,
      show (-106 : ℤ) = -((106 : ℕ) : ℤ) from by norm_num,
      zpow_neg, zpow_neg, zpow_natCast, zpow_natCast]
    norm_num
  have hsmall : |y - v| < 1 := by
    calc |y - v| ≤ v * ((2 : ℚ) ^ (-52 : ℤ) + (2 : ℚ) ^ (-106 : ℤ)) := herr
      _ ≤ (2 : ℚ) ^ (51 : ℕ) * ((2 : ℚ) ^ (-52 : ℤ) + (2 : ℚ) ^ (-106 : ℤ)) :=
          mul_le_mul_of_nonneg_right hvle (le_of_lt hδ)
      _ < 1 := hc
  have hlo : v - 1 < y := by
    have := (abs_lt.mp hsmall).1
    linarith
  have hhi : y < v + 1 := by
    have := (abs_lt.mp hsmall).2
    linarith
  have hcenter : alignCenter i nRef nT = ⌊y⌋₊ := by
    unfold alignCenter
    rw [if_neg (by omega), floorD_eq, hy]
  have hfv : ⌊v⌋₊ = i * nT / nRef := by
    rw [hv, show (nT : ℚ) * ((i : ℚ) / nRef) = ((i * nT : ℕ) : ℚ) / (nRef : ℕ)
      from by push_cast; ring, Nat.floor_div_nat, Nat.floor_natCast]
  constructor
  · constructor
    · rw [hcenter, ← hfv]
      have h5 : v ≤ y + 1 := by linarith
      have h6 : ⌊v⌋₊ ≤ ⌊y + 1⌋₊ := Nat.floor_mono h5
      rw [Nat.floor_add_one hynn] at h6
      exact h6
    · rw [hcenter, ← hfv]
      have h5 : y ≤ v + 1 := le_of_lt hhi
      have h6 : ⌊y⌋₊ ≤ ⌊v + 1⌋₊ := Nat.floor_mono h5
      rw [Nat.floor_add_one hvnn] at h6
      exact h6
  · intro hrt
    have hvi : v = (i : ℚ) := by
      rw [hv, ← hrt]
      field_simp
    rw [hvi] at hlo hhi
    have hub : ⌊y⌋₊ ≤ i := by
      have h7 : ⌊y⌋₊ < i + 1 := by
        rw [Nat.floor_lt hynn]
        push_cast
        linarith
      omega
    have hlb : i - 1 ≤ ⌊y⌋₊ := by
      apply Nat.le_floor
      have : ((i - 1 : ℕ) : ℚ) = (i : ℚ) - 1 := by
        have h1 : (1 : ℕ) ≤ i := hi
        push_cast [h1]
        ring
      rw [this]
      linarith
    rw [hcenter]
    omega

/-- C4 counterexample: at the reachable detector candidate index 30 with 103
reference points and 103 target samples, IEEE rounding makes the program
compute floor(103 * (30 / 103)) = 29, so the window is centered one sample
before the source corner, refuting the exact-center claim for
Nref = Ntarget. -/
theorem C4_counterexample :
    alignCenter 30 103 103 = 29 ∧ (29 : ℕ) ≠ 30 := by
  constructor
  · rfl
  · decide

/-- Witness for C4_alignment at cornerIdx 7, Nref = Ntarget = 20: the center
is within one of 7 * 20 / 20 and equals 7 or 6. -/
theorem C4_alignment_witness :
    (7 * 20 / 20 ≤ alignCenter 7 20 20 + 1 ∧
      alignCenter 7 20 20 ≤ 7 * 20 / 20 + 1) ∧
    (20 = 20 → alignCenter 7 20 20 = 7 ∨ alignCenter 7 20 20 = 7 - 1) :=
  C4_alignment 7 20 20 (by decide) (by decide) (by decide)

end Alignment

section CornerDetection

/-- Detected corner: candidate center index, the center point and the
windowed sub-sequence of points around it. -/
structure CornerData where
  index : ℕ
  center : TrackPoint
  points : List TrackPoint
deriving DecidableEq, Repr, Inhabited

/-- Step window size of fetchTrackData: max(10, floor(N / 30)). -/
def detectWindowSize (n : ℕ) : ℕ := max 10 (n / 30)

/-- Indices visited by `for (i = start; i < stop; i += step)`, in closed
form; the source's step w / 2 is at least 5 because w is at least 10, so the
loop always terminates and this closed form is exact. -/
def loopIdxs (start stop step : ℕ) : List ℕ :=
  (List.range ((stop - start + step - 1) / step)).map (fun j => start + j * step)

/-- Corner candidates of fetchTrackData. The curvature test at a center
index (two atan2 segment headings and an absolute angle difference
normalized into [0, pi], compared against the 0.25 rad threshold) involves
transcendental functions, so it is abstracted as an arbitrary Boolean
predicate `turnTest` on the center index; every theorem below holds for all
such predicates, hence in particular for the source's test. -/
def cornerCandidates (points : List TrackPoint) (turnTest : ℕ → Bool) :
    List CornerData :=
  let n := points.length
  let w := detectWindowSize n
  (loopIdxs (w * 2) (n - w * 2) (w / 2)).filterMap (fun i =>
    if turnTest i then
      let segmentSize := ⌊(n : ℚ) * (8 / 100)⌋₊
      let startIdx := i - segmentSize
      let endIdx := min (n - 1) (i + segmentSize)
      some ⟨i, points.getD i default,
        (points.drop startIdx).take (endIdx + 1 - startIdx)⟩
    else none)

/-- Closeness test of the de-duplication pass:
|existing.index - corner.index| < windowSize * 1.5, written over integers as
2 * |a - b| < 3 * w to avoid the fractional bound. -/
def tooClose (w : ℕ) (a b : ℕ) : Bool :=
  decide (2 * ((a : ℤ) - (b : ℤ)).natAbs < 3 * w)

/-- De-duplication loop: accept a candidate only when no previously accepted
corner lies within 1.5 * w samples. -/
def dedupGo (w : ℕ) : List CornerData → List CornerData → List CornerData
  | acc, [] => acc
  | acc, c :: cs =>
      if acc.any (fun e => tooClose w e.index c.index) then dedupGo w acc cs
      else dedupGo w (acc ++ [c]) cs

/-- De-duplication of the candidate list, starting from an empty accepted
set. -/
def dedupCorners (w : ℕ) (cands : List CornerData) : List CornerData :=
  dedupGo w [] cands

/-- Corner detection of fetchTrackData: candidate scan, de-duplication, then
a cap of 20 corners. -/
def detectCorners (points : List TrackPoint) (turnTest : ℕ → Bool) :
    List CornerData :=
  (dedupCorners (detectWindowSize points.length)
    (cornerCandidates points turnTest)).take 20

/-- C6: a position sequence shorter than 4 * w, where w = max(10, N / 30),
yields an empty corner catalog for every curvature predicate, because the
scan loop runs zero iterations; no error is possible. -/
theorem C6_short_sequence_empty (points : List TrackPoint) (turnTest : ℕ → Bool)
    (hshort : points.length < 4 * detectWindowSize points.length) :
    detectCorners points turnTest = [] := by
  have hw10 : 10 ≤ detectWindowSize points.length := le_max_left _ _
  have hcount : (points.length - detectWindowSize points.length * 2 -
      detectWindowSize points.length * 2 + detectWindowSize points.length / 2 - 1) /
      (detectWindowSize points.length / 2) = 0 :=
    Nat.div_eq_of_lt (by omega)
  simp [detectCorners, dedupCorners, cornerCandidates, loopIdxs, hcount, dedupGo]

/-- Witness for C6: 5 samples with w = 10 give an empty catalog. -/
theorem C6_short_sequence_empty_witness :
    detectCorners (List.replicate 5 (⟨0, 0⟩ : TrackPoint)) (fun _ => true) = [] :=
  C6_short_sequence_empty _ _ (by decide)

theorem dedupGo_pairwise (w : ℕ) (cs : List CornerData) :
    ∀ acc : List CornerData,
    acc.Pairwise (fun a b => a.index < b.index) →
    acc.Pairwise (fun a b => 3 * w ≤ 2 * ((a.index : ℤ) - (b.index : ℤ)).natAbs) →
    cs.Pairwise (fun a b => a.index < b.index) →
    (∀ a ∈ acc, ∀ c ∈ cs, a.index < c.index) →
    (dedupGo w acc cs).Pairwise (fun a b => a.index < b.index) ∧
    (dedupGo w acc cs).Pairwise
      (fun a b => 3 * w ≤ 2 * ((a.index : ℤ) - (b.index : ℤ)).natAbs) := by
  induction cs with
  | nil => intro acc h1 h2 _ _; exact ⟨h1, h2⟩
  | cons c cs ih =>
      intro acc hacc1 hacc2 hcs hcross
      rw [List.pairwise_cons] at hcs
      obtain ⟨hccs, hcs'⟩ := hcs
      simp only [dedupGo]
      by_cases hany : acc.any (fun e => tooClose w e.index c.index) = true
      · rw [if_pos hany]
        exact ih acc hacc1 hacc2 hcs'
          (fun a ha d hd => hcross a ha d (List.mem_cons_of_mem c hd))
      · rw [if_neg hany]
        have hfalse : ∀ e ∈ acc, ¬ (2 * ((e.index : ℤ) - (c.index : ℤ)).natAbs < 3 * w) := by
          intro e he hlt
          exact hany (List.any_eq_true.mpr ⟨e, he, decide_eq_true hlt⟩)
        apply ih (acc ++ [c])
        · rw [List.pairwise_append]
          refine ⟨hacc1, List.pairwise_singleton _ _, fun a ha b hb => ?_⟩
          rw [List.mem_singleton] at hb
          rw [hb]
          exact hcross a ha c (List.mem_cons_self c cs)
        · rw [List.pairwise_append]
          refine ⟨hacc2, List.pairwise_singleton _ _, fun a ha b hb => ?_⟩
          rw [List.mem_singleton] at hb
          subst hb
          have := hfalse a ha
          omega
        · exact hcs'
        · intro a ha d hd
          rw [List.mem_append] at ha
          rcases ha with ha | ha
          · exact hcross a ha d (List.mem_cons_of_mem c hd)
          · rw [List.mem_singleton] at ha
            subst ha
            exact hccs d hd

theorem cornerCandidates_sorted (points : List TrackPoint) (turnTest : ℕ → Bool) :
    (cornerCandidates points turnTest).Pairwise (fun a b => a.index < b.index) := by
  unfold cornerCandidates
  rw [List.pairwise_filterMap]
  have hstep : 0 < detectWindowSize points.length / 2 :=
    Nat.div_pos (le_trans (by norm_num) (le_max_left 10 _)) (by norm_num)
  have hloop : (loopIdxs (detectWindowSize points.length * 2)
      (points.length - detectWindowSize points.length * 2)
      (detectWindowSize points.length / 2)).Pairwise (· < ·) := by
    unfold loopIdxs
    rw [List.pairwise_map]
    exact (List.pairwise_lt_range _).imp
      (fun h => Nat.add_lt_add_left (Nat.mul_lt_mul_of_lt_of_le h (le_refl _) hstep) _)
  refine hloop.imp ?_
  intro a b hab x hx y hy
  by_cases ha : turnTest a
  · rw [if_pos ha, Option.mem_some_iff] at hx
    by_cases hb : turnTest b
    · rw [if_pos hb, Option.mem_some_iff] at hy
      subst hx
      subst hy
      exact hab
    · rw [if_neg hb] at hy
      exact absurd hy (Option.not_mem_none y)
  · rw [if_neg ha] at hx
    exact absurd hx (Option.not_mem_none x)

/-- C7: the detected catalog is ordered by ascending index, any two of its
corners are at least 1.5 * w apart (written 3 * w <= 2 * |difference|), it
contains at most 20 corners; and in the de-duplication two candidate turns
w apart collapse into one accepted corner while turns 2 * w apart stay two. -/
theorem C7_catalog_invariants (points : List TrackPoint) (turnTest : ℕ → Bool) :
    (detectCorners points turnTest).Pairwise (fun a b => a.index < b.index) ∧
    (detectCorners points turnTest).Pairwise
      (fun a b => 3 * detectWindowSize points.length ≤
        2 * ((a.index : ℤ) - (b.index : ℤ)).natAbs) ∧
    (detectCorners points turnTest).length ≤ 20 ∧
    (∀ w i : ℕ, 0 < w → ∀ c₁ c₂ : CornerData, c₁.index = i →
      (c₂.index = i + w → dedupCorners w [c₁, c₂] = [c₁]) ∧
      (c₂.index = i + 2 * w → dedupCorners w [c₁, c₂] = [c₁, c₂])) := by
  have hdedup := dedupGo_pairwise (detectWindowSize points.length)
    (cornerCandidates points turnTest) [] (List.Pairwise.nil) (List.Pairwise.nil)
    (cornerCandidates_sorted points turnTest) (by intro a ha; simp at ha)
  refine ⟨?_, ?_, ?_, ?_⟩
  · exact List.Pairwise.sublist (List.take_sublist _ _) hdedup.1
  · exact List.Pairwise.sublist (List.take_sublist _ _) hdedup.2
  · exact List.length_take_le _ _
  · intro w i hw c₁ c₂ h1
    constructor
    · intro h2
      have ht : tooClose w c₁.index c₂.index = true := by
        unfold tooClose
        rw [h1, h2]
        exact decide_eq_true (by omega)
      simp [dedupCorners, dedupGo, ht]
    · intro h2
      have ht : tooClose w c₁.index c₂.index = false := by
        unfold tooClose
        rw [h1, h2]
        exact decide_eq_false (by omega)
      simp [dedupCorners, dedupGo, ht]

/-- Witness for C7: with w = 10, candidates at indices 20 and 30 (one step
window apart) collapse to one corner; candidates at 20 and 40 stay two. -/
theorem C7_catalog_invariants_witness :
    dedupCorners 10 [⟨20, ⟨0, 0⟩, []⟩, ⟨30, ⟨0, 0⟩, []⟩] = [⟨20, ⟨0, 0⟩, []⟩] ∧
    dedupCorners 10 [⟨20, ⟨0, 0⟩, []⟩, ⟨40, ⟨0, 0⟩, []⟩] =
      [⟨20, ⟨0, 0⟩, []⟩, ⟨40, ⟨0, 0⟩, []⟩] :=
  ⟨((C7_catalog_invariants [] (fun _ => false)).2.2.2 10 20 (by norm_num)
      ⟨20, ⟨0, 0⟩, []⟩ ⟨30, ⟨0, 0⟩, []⟩ rfl).1 rfl,
   ((C7_catalog_invariants [] (fun _ => false)).2.2.2 10 20 (by norm_num)
      ⟨20, ⟨0, 0⟩, []⟩ ⟨40, ⟨0, 0⟩, []⟩ rfl).2 rfl⟩

end CornerDetection

section PositionReconstruction

/-- One lap record of the session lap table; only the fields the position
chart reads are carried (the pit-out flag is part of the record but, unlike
in the fastest-lap computation, it is never consulted here). -/
structure LapRec where
  driverNumber : ℕ
  lapNumber : ℕ
  lapDuration : Option ℚ
  isPitOutLap : Bool
deriving DecidableEq, Repr

/-- The cumulative-time map, modelled as a JavaScript Map: an association
list whose key order is the insertion order. -/
abbrev CumMap := List (ℕ × ℚ)

/-- Map.get: the value stored at key `k`, if present. -/
def mapGet (m : CumMap) (k : ℕ) : Option ℚ :=
  (m.find? (fun p => decide (p.1 = k))).map Prod.snd

/-- Map.set: an existing key is updated in place, keeping its position; a
new key is appended at the end — the JS insertion-order semantics. -/
def mapSet (m : CumMap) (k : ℕ) (v : ℚ) : CumMap :=
  if m.any (fun p => decide (p.1 = k)) then
    m.map (fun p => if p.1 = k then (k, v) else p)
  else m ++ [(k, v)]

/-- Keys of the map, in insertion order. -/
def mapKeys (m : CumMap) : List ℕ := m.map Prod.fst

/-- Stored value with the `|| 0` default of the source. -/
def mapGetD (m : CumMap) (k : ℕ) : ℚ := (mapGet m k).getD 0

/-- Accumulation over one lap group: every lap with a non-null duration adds
it to its driver's total (`(cumulativeTimes.get(d) || 0) + duration`); laps
with a null duration are skipped. -/
def updateCum (m : CumMap) (group : List LapRec) : CumMap :=
  group.foldl (fun acc lap =>
    match lap.lapDuration with
    | none => acc
    | some d => mapSet acc lap.driverNumber (mapGetD acc lap.driverNumber + d)) m

/-- Largest lap number present in the records. -/
def maxLapNumber (laps : List LapRec) : ℕ :=
  (laps.map LapRec.lapNumber).foldr max 0

/-- The distinct lap numbers of the record set in ascending order (the
source sorts the grouping map's keys numerically ascending). -/
def sortedLapNums (laps : List LapRec) : List ℕ :=
  (List.range (maxLapNumber laps + 1)).filter
    (fun n => (laps.map LapRec.lapNumber).contains n)

/-- The laps grouped under one lap number, in record order. -/
def lapsAt (laps : List LapRec) (n : ℕ) : List LapRec :=
  laps.filter (fun l => decide (l.lapNumber = n))

/-- Comparator of the position sort: ascending cumulative time. -/
def cumLE (a b : ℕ × ℚ) : Prop := a.2 ≤ b.2

instance : DecidableRel cumLE := fun a b => inferInstanceAs (Decidable (a.2 ≤ b.2))

/-- Stable ascending sort of the map entries by cumulative time
(Array.prototype.sort with comparator a[1] - b[1] is stable, modelled by
insertion sort). -/
def sortByCum (m : CumMap) : CumMap := List.insertionSort cumLE m

/-- One row of the reconstructed position table. -/
structure PositionTableEntry where
  lapNumber : ℕ
  driverNumber : ℕ
  position : ℕ
deriving DecidableEq, Repr

/-- Rows emitted for one lap number: rank index + 1 over the sorted
cumulative map, kept only for drivers present in the session's driver list
(the source's positionMap lookup guards the push). -/
def emitLap (drivers : List ℕ) (n : ℕ) (m : CumMap) : List PositionTableEntry :=
  (sortByCum m).enum.filterMap (fun p =>
    if p.2.1 ∈ drivers then some ⟨n, p.2.1, p.1 + 1⟩ else none)

/-- One iteration of the lap-number loop: update the cumulative map with the
lap's group, then append the emitted table rows. -/
def stepLap (drivers : List ℕ) (laps : List LapRec)
    (acc : CumMap × List PositionTableEntry) (n : ℕ) :
    CumMap × List PositionTableEntry :=
  let m := updateCum acc.1 (lapsAt laps n)
  (m, acc.2 ++ emitLap drivers n m)

/-- Position reconstruction: process lap numbers ascending while maintaining
the cumulative-time map, collecting every emitted row. -/
def reconstructPositions (drivers : List ℕ) (laps : List LapRec) :
    List PositionTableEntry :=
  ((sortedLapNums laps).foldl (stepLap drivers laps) ([], [])).2

/-- Cumulative map obtained from `m` by processing the given lap numbers. -/
def cumFoldFrom (laps : List LapRec) (m : CumMap) (nums : List ℕ) : CumMap :=
  nums.foldl (fun m n => updateCum m (lapsAt laps n)) m

/-- Cumulative map after processing the given lap numbers from scratch. -/
def cumThrough (laps : List LapRec) (nums : List ℕ) : CumMap :=
  cumFoldFrom laps [] nums

/-- The processed lap numbers strictly before L. -/
def numsBefore (laps : List LapRec) (L : ℕ) : List ℕ :=
  (sortedLapNums laps).takeWhile (fun n => decide (n < L))

/-- Rows produced from state `m` onwards, one batch per lap number. -/
def entriesFrom (drivers : List ℕ) (laps : List LapRec) (m : CumMap) :
    List ℕ → List PositionTableEntry
  | [] => []
  | n :: ns =>
      emitLap drivers n (updateCum m (lapsAt laps n)) ++
        entriesFrom drivers laps (updateCum m (lapsAt laps n)) ns

/-- Per-lap contribution of one record to driver `d`: its duration when the
record belongs to `d` and has one, else nothing. -/
def contrib (d : ℕ) (l : LapRec) : ℚ :=
  if l.driverNumber = d then l.lapDuration.getD 0 else 0

/-- Sum of the duration contributions of a lap list to driver `d`. -/
def sumContrib (g : List LapRec) (d : ℕ) : ℚ := (g.map (contrib d)).sum


section MapLemmas

theorem mapSet_nil (k : ℕ) (v : ℚ) : mapSet [] k v = [(k, v)] := rfl

theorem mapSet_cons_ne (p : ℕ × ℚ) (rest : CumMap) (k : ℕ) (v : ℚ)
    (hne : p.1 ≠ k) : mapSet (p :: rest) k v = p :: mapSet rest k v := by
  unfold mapSet
  rw [List.any_cons, show decide (p.1 = k) = false from decide_eq_false hne,
    Bool.false_or]
  by_cases hr : rest.any (fun q => decide (q.1 = k)) = true
  · rw [if_pos hr, if_pos hr, List.map_cons, if_neg hne]
  · rw [if_neg hr, if_neg hr, List.cons_append]

theorem mapSet_cons_eq (p : ℕ × ℚ) (rest : CumMap) (k : ℕ) (v : ℚ)
    (heq : p.1 = k) :
    mapSet (p :: rest) k v =
      (k, v) :: rest.map (fun q => if q.1 = k then (k, v) else q) := by
  unfold mapSet
  rw [List.any_cons, show decide (p.1 = k) = true from decide_eq_true heq,
    Bool.true_or, if_pos rfl, List.map_cons, if_pos heq]

theorem mapGet_nil (k : ℕ) : mapGet [] k = none := rfl

theorem mapGet_cons (p : ℕ × ℚ) (rest : CumMap) (k : ℕ) :
    mapGet (p :: rest) k = if p.1 = k then some p.2 else mapGet rest k := by
  unfold mapGet
  by_cases h : p.1 = k
  · have hf : List.find? (fun q => decide (q.1 = k)) (p :: rest) = some p :=
      List.find?_cons_of_pos _ (by simpa using h)
    rw [hf, if_pos h]
    rfl
  · have hf : List.find? (fun q => decide (q.1 = k)) (p :: rest) =
        List.find? (fun q => decide (q.1 = k)) rest :=
      List.find?_cons_of_neg _ (by simpa using h)
    rw [hf, if_neg h]

theorem mapGet_mapUpdate_ne (m : CumMap) (k k' : ℕ) (v : ℚ) (hne : k' ≠ k) :
    mapGet (m.map (fun q => if q.1 = k then (k, v) else q)) k' = mapGet m k' := by
  induction m with
  | nil => rfl
  | cons q rest ih =>
      rw [List.map_cons]
      by_cases hq : q.1 = k
      · rw [if_pos hq, mapGet_cons, mapGet_cons,
          if_neg (show ¬ ((k, v).1 = k') from fun h => hne h.symm),
          if_neg (show ¬ (q.1 = k') from by rw [hq]; exact fun h => hne h.symm)]
        exact ih
      · rw [if_neg hq, mapGet_cons, mapGet_cons]
        by_cases hq' : q.1 = k'
        · rw [if_pos hq', if_pos hq']
        · rw [if_neg hq', if_neg hq']
          exact ih

theorem mapGet_mapSet_self (m : CumMap) (k : ℕ) (v : ℚ) :
    mapGet (mapSet m k v) k = some v := by
  induction m with
  | nil =>
      rw [mapSet_nil, mapGet_cons, if_pos rfl]
  | cons p rest ih =>
      by_cases hp : p.1 = k
      · rw [mapSet_cons_eq p rest k v hp, mapGet_cons, if_pos rfl]
      · rw [mapSet_cons_ne p rest k v hp, mapGet_cons, if_neg hp]
        exact ih

theorem mapGet_mapSet_ne (m : CumMap) (k k' : ℕ) (v : ℚ) (hne : k' ≠ k) :
    mapGet (mapSet m k v) k' = mapGet m k' := by
  induction m with
  | nil =>
      rw [mapSet_nil, mapGet_cons, if_neg (fun h => hne h.symm)]
  | cons p rest ih =>
      by_cases hp : p.1 = k
      · rw [mapSet_cons_eq p rest k v hp, mapGet_cons,
          if_neg (show ¬ ((k, v).1 = k') from fun h => hne h.symm),
          mapGet_cons, if_neg (show ¬ (p.1 = k') from by
            rw [hp]; exact fun h => hne h.symm)]
        exact mapGet_mapUpdate_ne rest k k' v hne
      · rw [mapSet_cons_ne p rest k v hp, mapGet_cons, mapGet_cons]
        by_cases hp' : p.1 = k'
        · rw [if_pos hp', if_pos hp']
        · rw [if_neg hp', if_neg hp']
          exact ih

theorem mem_mapKeys_iff_any (m : CumMap) (k : ℕ) :
    m.any (fun p => decide (p.1 = k)) = true ↔ k ∈ mapKeys m := by
  rw [List.any_eq_true]
  unfold mapKeys
  rw [List.mem_map]
  constructor
  · rintro ⟨p, hp, hpk⟩
    exact ⟨p, hp, of_decide_eq_true hpk⟩
  · rintro ⟨p, hp, hpk⟩
    exact ⟨p, hp, decide_eq_true hpk⟩

theorem mapKeys_mapSet (m : CumMap) (k : ℕ) (v : ℚ) :
    mapKeys (mapSet m k v) =
      if k ∈ mapKeys m then mapKeys m else mapKeys m ++ [k] := by
  unfold mapSet
  by_cases h : m.any (fun p => decide (p.1 = k)) = true
  · rw [if_pos h, if_pos ((mem_mapKeys_iff_any m k).mp h)]
    unfold mapKeys
    rw [List.map_map]
    apply List.map_congr_left
    intro p _
    by_cases hpk : p.1 = k
    · simp [hpk]
    · simp [hpk]
  · rw [if_neg h, if_neg (fun hm => h ((mem_mapKeys_iff_any m k).mpr hm))]
    unfold mapKeys
    rw [List.map_append]
    rfl

theorem mem_mapKeys_mapSet (m : CumMap) (k k' : ℕ) (v : ℚ) :
    k' ∈ mapKeys (mapSet m k v) ↔ k' ∈ mapKeys m ∨ k' = k := by
  rw [mapKeys_mapSet]
  by_cases h : k ∈ mapKeys m
  · rw [if_pos h]
    constructor
    · exact Or.inl
    · rintro (hm | rfl)
      · exact hm
      · exact h
  · rw [if_neg h, List.mem_append, List.mem_singleton]

theorem nodup_mapKeys_mapSet (m : CumMap) (k : ℕ) (v : ℚ)
    (h : (mapKeys m).Nodup) : (mapKeys (mapSet m k v)).Nodup := by
  rw [mapKeys_mapSet]
  by_cases hk : k ∈ mapKeys m
  · rw [if_pos hk]
    exact h
  · rw [if_neg hk, List.nodup_append]
    refine ⟨h, List.nodup_singleton k, ?_⟩
    intro a ha hb
    rw [List.mem_singleton] at hb
    subst hb
    exact hk ha

end MapLemmas

section AccumulationLemmas

theorem contrib_none (d : ℕ) (l : LapRec) (h : l.lapDuration = none) :
    contrib d l = 0 := by
  unfold contrib
  rw [h]
  by_cases hd : l.driverNumber = d
  · rw [if_pos hd]
    rfl
  · rw [if_neg hd]

theorem contrib_some (d : ℕ) (l : LapRec) (dd : ℚ) (h : l.lapDuration = some dd) :
    contrib d l = if l.driverNumber = d then dd else 0 := by
  unfold contrib
  rw [h]
  rfl

theorem sumContrib_nil (d : ℕ) : sumContrib [] d = 0 := rfl

theorem sumContrib_cons (l : LapRec) (g : List LapRec) (d : ℕ) :
    sumContrib (l :: g) d = contrib d l + sumContrib g d := by
  unfold sumContrib
  rw [List.map_cons, List.sum_cons]

theorem updateCum_nil (m : CumMap) : updateCum m [] = m := rfl

theorem updateCum_cons (m : CumMap) (lap : LapRec) (g : List LapRec) :
    updateCum m (lap :: g) =
      updateCum (match lap.lapDuration with
        | none => m
        | some d => mapSet m lap.driverNumber (mapGetD m lap.driverNumber + d)) g := rfl

theorem mapGetD_updateCum (g : List LapRec) (m : CumMap) (d : ℕ) :
    mapGetD (updateCum m g) d = mapGetD m d + sumContrib g d := by
  induction g generalizing m with
  | nil =>
      rw [updateCum_nil, sumContrib_nil]
      ring
  | cons lap g ih =>
      rw [updateCum_cons, sumContrib_cons]
      cases hdur : lap.lapDuration with
      | none =>
          rw [ih, contrib_none d lap hdur]
          ring
      | some dd =>
          rw [ih, contrib_some d lap dd hdur]
          unfold mapGetD
          by_cases hld : lap.driverNumber = d
          · rw [hld, mapGet_mapSet_self, if_pos rfl]
            simp only [Option.getD_some]
            ring
          · rw [mapGet_mapSet_ne m lap.driverNumber d _ (fun h => hld h.symm),
              if_neg hld]
            ring

theorem mem_mapKeys_updateCum (g : List LapRec) (m : CumMap) (d : ℕ) :
    d ∈ mapKeys (updateCum m g) ↔
      d ∈ mapKeys m ∨ ∃ l ∈ g, l.driverNumber = d ∧ l.lapDuration ≠ none := by
  induction g generalizing m with
  | nil =>
      rw [updateCum_nil]
      simp
  | cons lap g ih =>
      rw [updateCum_cons]
      cases hdur : lap.lapDuration with
      | none =>
          rw [ih]
          constructor
          · rintro (h | ⟨l, hl, hld, hldur⟩)
            · exact Or.inl h
            · exact Or.inr ⟨l, List.mem_cons_of_mem lap hl, hld, hldur⟩
          · rintro (h | ⟨l, hl, hld, hldur⟩)
            · exact Or.inl h
            · rcases List.mem_cons.mp hl with hl | hl
              · subst hl
                exact absurd hdur hldur
              · exact Or.inr ⟨l, hl, hld, hldur⟩
      | some dd =>
          rw [ih]
          constructor
          · rintro (h | ⟨l, hl, hld, hldur⟩)
            · rcases (mem_mapKeys_mapSet m lap.driverNumber d _).mp h with h | h
              · exact Or.inl h
              · exact Or.inr ⟨lap, List.mem_cons_self lap g, h.symm, by
                  rw [hdur]; exact Option.some_ne_none dd⟩
            · exact Or.inr ⟨l, List.mem_cons_of_mem lap hl, hld, hldur⟩
          · rintro (h | ⟨l, hl, hld, hldur⟩)
            · exact Or.inl ((mem_mapKeys_mapSet m lap.driverNumber d _).mpr (Or.inl h))
            · rcases List.mem_cons.mp hl with hl | hl
              · subst hl
                exact Or.inl ((mem_mapKeys_mapSet m l.driverNumber d _).mpr (Or.inr hld.symm))
              · exact Or.inr ⟨l, hl, hld, hldur⟩

theorem nodup_mapKeys_updateCum (g : List LapRec) (m : CumMap)
    (h : (mapKeys m).Nodup) : (mapKeys (updateCum m g)).Nodup := by
  induction g generalizing m with
  | nil => exact h
  | cons lap g ih =>
      rw [updateCum_cons]
      cases lap.lapDuration with
      | none => exact ih m h
      | some dd => exact ih _ (nodup_mapKeys_mapSet _ _ _ h)

theorem mem_lapsAt (laps : List LapRec) (n : ℕ) (l : LapRec) :
    l ∈ lapsAt laps n ↔ l ∈ laps ∧ l.lapNumber = n := by
  unfold lapsAt
  rw [List.mem_filter]
  simp

theorem maxLapNumber_cons (l : LapRec) (laps : List LapRec) :
    maxLapNumber (l :: laps) = max l.lapNumber (maxLapNumber laps) := by
  unfold maxLapNumber
  rw [List.map_cons, List.foldr_cons]

theorem le_maxLapNumber (laps : List LapRec) (l : LapRec) (hl : l ∈ laps) :
    l.lapNumber ≤ maxLapNumber laps := by
  induction laps with
  | nil => exact absurd hl (List.not_mem_nil l)
  | cons t laps ih =>
      rw [maxLapNumber_cons]
      rcases List.mem_cons.mp hl with h | h
      · subst h
        exact le_max_left _ _
      · exact le_trans (ih h) (le_max_right _ _)

theorem mem_sortedLapNums (laps : List LapRec) (n : ℕ) :
    n ∈ sortedLapNums laps ↔ ∃ l ∈ laps, l.lapNumber = n := by
  unfold sortedLapNums
  rw [List.mem_filter, List.mem_range]
  constructor
  · rintro ⟨_, hc⟩
    have hmem : n ∈ List.map LapRec.lapNumber laps := by simpa using hc
    rcases List.mem_map.mp hmem with ⟨l, hl, hln⟩
    exact ⟨l, hl, hln⟩
  · rintro ⟨l, hl, hln⟩
    refine ⟨by have := le_maxLapNumber laps l hl; omega, ?_⟩
    have hmem : n ∈ List.map LapRec.lapNumber laps := List.mem_map.mpr ⟨l, hl, hln⟩
    simpa using hmem

theorem sortedLapNums_nodup (laps : List LapRec) : (sortedLapNums laps).Nodup :=
  (List.nodup_range _).filter _

theorem sortedLapNums_sorted (laps : List LapRec) :
    (sortedLapNums laps).Pairwise (· < ·) :=
  (List.pairwise_lt_range _).filter _

end AccumulationLemmas


section PartitionLemmas

theorem sum_map_add_q {α : Type} (l : List α) (f g : α → ℚ) :
    (l.map (fun x => f x + g x)).sum = (l.map f).sum + (l.map g).sum := by
  induction l with
  | nil => simp
  | cons x l ih =>
      rw [List.map_cons, List.sum_cons, ih, List.map_cons, List.sum_cons,
        List.map_cons, List.sum_cons]
      ring

theorem sum_map_ite_eq (nums : List ℕ) (hnd : nums.Nodup) (a : ℕ) (c : ℚ) :
    (nums.map (fun n => if a = n then c else 0)).sum = if a ∈ nums then c else 0 := by
  induction nums with
  | nil => simp
  | cons n ns ih =>
      rw [List.nodup_cons] at hnd
      rw [List.map_cons, List.sum_cons, ih hnd.2]
      by_cases han : a = n
      · subst han
        rw [if_pos rfl, if_neg hnd.1, if_pos (List.mem_cons_self a ns)]
        ring
      · rw [if_neg han]
        by_cases hmem : a ∈ ns
        · rw [if_pos hmem, if_pos (List.mem_cons_of_mem n hmem)]
          ring
        · rw [if_neg hmem, if_neg (by
            intro hc
            rcases List.mem_cons.mp hc with h | h
            · exact han h
            · exact hmem h)]
          ring

theorem sum_groups_eq_sumContrib (nums : List ℕ) (hnd : nums.Nodup)
    (laps : List LapRec) (d : ℕ) (hcov : ∀ l ∈ laps, l.lapNumber ∈ nums) :
    (nums.map (fun n => sumContrib (lapsAt laps n) d)).sum = sumContrib laps d := by
  induction laps with
  | nil =>
      have hz : ∀ n ∈ nums, sumContrib (lapsAt ([] : List LapRec) n) d = 0 := by
        intro n _
        rfl
      rw [List.map_congr_left hz]
      simp [sumContrib_nil]
  | cons l laps ih =>
      have hstep : ∀ n ∈ nums, sumContrib (lapsAt (l :: laps) n) d =
          (if l.lapNumber = n then contrib d l else 0) +
            sumContrib (lapsAt laps n) d := by
        intro n _
        unfold lapsAt
        rw [List.filter_cons]
        by_cases h : l.lapNumber = n
        · rw [if_pos (by simpa using h), if_pos h]
          exact sumContrib_cons l _ d
        · rw [if_neg (by simpa using h), if_neg h]
          ring
      rw [List.map_congr_left hstep,
        sum_map_add_q nums (fun n => if l.lapNumber = n then contrib d l else 0)
          (fun n => sumContrib (lapsAt laps n) d),
        sum_map_ite_eq nums hnd l.lapNumber (contrib d l),
        if_pos (hcov l (List.mem_cons_self l laps)),
        ih (fun t ht => hcov t (List.mem_cons_of_mem l ht)),
        sumContrib_cons]

theorem cumFoldFrom_nil (laps : List LapRec) (m : CumMap) :
    cumFoldFrom laps m [] = m := rfl

theorem cumFoldFrom_cons (laps : List LapRec) (m : CumMap) (n : ℕ) (ns : List ℕ) :
    cumFoldFrom laps m (n :: ns) =
      cumFoldFrom laps (updateCum m (lapsAt laps n)) ns := rfl

theorem cumFoldFrom_append (laps : List LapRec) (m : CumMap) (as bs : List ℕ) :
    cumFoldFrom laps m (as ++ bs) = cumFoldFrom laps (cumFoldFrom laps m as) bs :=
  List.foldl_append _ _ _ _

theorem mapGetD_cumFoldFrom (laps : List LapRec) (nums : List ℕ) (m : CumMap)
    (d : ℕ) :
    mapGetD (cumFoldFrom laps m nums) d =
      mapGetD m d + (nums.map (fun n => sumContrib (lapsAt laps n) d)).sum := by
  induction nums generalizing m with
  | nil =>
      rw [cumFoldFrom_nil]
      simp
  | cons n ns ih =>
      rw [cumFoldFrom_cons, ih, mapGetD_updateCum, List.map_cons, List.sum_cons]
      ring

theorem mem_mapKeys_cumFoldFrom (laps : List LapRec) (nums : List ℕ) (m : CumMap)
    (d : ℕ) :
    d ∈ mapKeys (cumFoldFrom laps m nums) ↔
      d ∈ mapKeys m ∨
        ∃ l ∈ laps, l.lapNumber ∈ nums ∧ l.driverNumber = d ∧ l.lapDuration ≠ none := by
  induction nums generalizing m with
  | nil =>
      rw [cumFoldFrom_nil]
      simp
  | cons n ns ih =>
      rw [cumFoldFrom_cons, ih, mem_mapKeys_updateCum]
      constructor
      · rintro ((h | ⟨l, hl, hld, hldur⟩) | ⟨l, hl, hln, hld, hldur⟩)
        · exact Or.inl h
        · exact Or.inr ⟨l, (mem_lapsAt laps n l).mp hl |>.1,
            by rw [((mem_lapsAt laps n l).mp hl).2]; exact List.mem_cons_self n ns,
            hld, hldur⟩
        · exact Or.inr ⟨l, hl, List.mem_cons_of_mem n hln, hld, hldur⟩
      · rintro (h | ⟨l, hl, hln, hld, hldur⟩)
        · exact Or.inl (Or.inl h)
        · rcases List.mem_cons.mp hln with hln | hln
          · exact Or.inl (Or.inr ⟨l, (mem_lapsAt laps n l).mpr ⟨hl, hln⟩, hld, hldur⟩)
          · exact Or.inr ⟨l, hl, hln, hld, hldur⟩

theorem nodup_mapKeys_cumFoldFrom (laps : List LapRec) (nums : List ℕ)
    (m : CumMap) (h : (mapKeys m).Nodup) :
    (mapKeys (cumFoldFrom laps m nums)).Nodup := by
  induction nums generalizing m with
  | nil => exact h
  | cons n ns ih =>
      rw [cumFoldFrom_cons]
      exact ih _ (nodup_mapKeys_updateCum _ _ h)

end PartitionLemmas

section ClaimC2

/-- Accumulation as the claim words it: only laps valid under both
conditions (non-null duration and not a pit-out lap) would contribute to a
driver's total. Stated from the spec sentence for comparison with the code's
accumulation. -/
def specValidCum (laps : List LapRec) (d : ℕ) : ℚ :=
  ((laps.filter (fun l => decide (l.driverNumber = d) && !l.isPitOutLap)).map
    (fun l => l.lapDuration.getD 0)).sum

/-- C2 (amended): during position reconstruction a lap with null duration
never contributes, but a pit-out lap with a non-null duration IS added: each
driver's cumulative total equals the sum of all of that driver's non-null
lap durations, with the pit-out flag never consulted; a driver holds a key
in the map exactly when they have at least one non-null lap. -/
theorem C2_accumulation (laps : List LapRec) (d : ℕ) :
    mapGetD (cumThrough laps (sortedLapNums laps)) d = sumContrib laps d ∧
    (d ∈ mapKeys (cumThrough laps (sortedLapNums laps)) ↔
      ∃ l ∈ laps, l.driverNumber = d ∧ l.lapDuration ≠ none) := by
  constructor
  · unfold cumThrough
    rw [mapGetD_cumFoldFrom,
      sum_groups_eq_sumContrib (sortedLapNums laps) (sortedLapNums_nodup laps)
        laps d (fun l hl => (mem_sortedLapNums laps l.lapNumber).mpr ⟨l, hl, rfl⟩)]
    show (mapGet [] d).getD 0 + sumContrib laps d = sumContrib laps d
    rw [mapGet_nil]
    simp
  · unfold cumThrough
    rw [mem_mapKeys_cumFoldFrom]
    constructor
    · rintro (h | ⟨l, hl, _, hld, hldur⟩)
      · exact absurd h (List.not_mem_nil d)
      · exact ⟨l, hl, hld, hldur⟩
    · rintro ⟨l, hl, hld, hldur⟩
      exact Or.inr ⟨l, hl,
        (mem_sortedLapNums laps l.lapNumber).mpr ⟨l, hl, rfl⟩, hld, hldur⟩

/-- The session used as the C2 counterexample: a single pit-out lap with a
non-null duration of 100 seconds. -/
def c2laps : List LapRec := [⟨1, 1, some 100, true⟩]

/-- C2 counterexample: driver 1's only lap is a pit-out lap, so under the
claim the accumulated total would be the valid-lap sum 0, but the code adds
the lap and stores 100. -/
theorem C2_counterexample :
    mapGetD (cumThrough c2laps (sortedLapNums c2laps)) 1 ≠ specValidCum c2laps 1 ∧
    mapGetD (cumThrough c2laps (sortedLapNums c2laps)) 1 = 100 ∧
    specValidCum c2laps 1 = 0 := by
  have h1 : mapGetD (cumThrough c2laps (sortedLapNums c2laps)) 1 = 0 + 100 := rfl
  have h2 : specValidCum c2laps 1 = 0 := rfl
  refine ⟨?_, ?_, h2⟩
  · rw [h1, h2]
    norm_num
  · rw [h1]
    norm_num

end ClaimC2


section TableLemmas

theorem foldl_stepLap (drivers : List ℕ) (laps : List LapRec) (nums : List ℕ) :
    ∀ (m : CumMap) (es : List PositionTableEntry),
      nums.foldl (stepLap drivers laps) (m, es) =
        (cumFoldFrom laps m nums, es ++ entriesFrom drivers laps m nums) := by
  induction nums with
  | nil =>
      intro m es
      rw [List.foldl_nil, cumFoldFrom_nil]
      simp [entriesFrom]
  | cons n ns ih =>
      intro m es
      rw [List.foldl_cons]
      show (ns.foldl (stepLap drivers laps)
        (updateCum m (lapsAt laps n),
          es ++ emitLap drivers n (updateCum m (lapsAt laps n)))) = _
      rw [ih, cumFoldFrom_cons]
      simp only [entriesFrom]
      rw [List.append_assoc]

theorem reconstructPositions_eq (drivers : List ℕ) (laps : List LapRec) :
    reconstructPositions drivers laps =
      entriesFrom drivers laps [] (sortedLapNums laps) := by
  unfold reconstructPositions
  rw [foldl_stepLap drivers laps (sortedLapNums laps) [] []]
  rw [List.nil_append]

theorem entriesFrom_append (drivers : List ℕ) (laps : List LapRec)
    (as bs : List ℕ) : ∀ m,
    entriesFrom drivers laps m (as ++ bs) =
      entriesFrom drivers laps m as ++
        entriesFrom drivers laps (cumFoldFrom laps m as) bs := by
  induction as with
  | nil =>
      intro m
      rw [List.nil_append, cumFoldFrom_nil]
      simp [entriesFrom]
  | cons a as ih =>
      intro m
      rw [List.cons_append]
      simp only [entriesFrom]
      rw [ih, cumFoldFrom_cons, List.append_assoc]

theorem sorted_mem_split (l : List ℕ) (hsort : l.Pairwise (· < ·)) (L : ℕ)
    (hL : L ∈ l) :
    ∃ t, l = l.takeWhile (fun n => decide (n < L)) ++ L :: t ∧ ∀ n ∈ t, L < n := by
  induction l with
  | nil => exact absurd hL (List.not_mem_nil L)
  | cons x xs ih =>
      rw [List.pairwise_cons] at hsort
      by_cases hx : x < L
      · have hLx : L ≠ x := by omega
        have hLxs : L ∈ xs := by
          rcases List.mem_cons.mp hL with h | h
          · exact absurd h hLx
          · exact h
        obtain ⟨t, ht, htgt⟩ := ih hsort.2 hLxs
        refine ⟨t, ?_, htgt⟩
        rw [List.takeWhile_cons_of_pos (by simpa using hx), List.cons_append]
        rw [← ht]
      · have hxL : x = L := by
          rcases List.mem_cons.mp hL with h | h
          · exact h.symm
          · exact absurd (hsort.1 L h) hx
        subst hxL
        refine ⟨xs, ?_, fun n hn => hsort.1 n hn⟩
        rw [List.takeWhile_cons_of_neg (by simp [hx])]
        rfl

theorem sortedLapNums_split (laps : List LapRec) (L : ℕ)
    (hL : L ∈ sortedLapNums laps) :
    ∃ t, sortedLapNums laps = numsBefore laps L ++ L :: t ∧ ∀ n ∈ t, L < n := by
  unfold numsBefore
  exact sorted_mem_split _ (sortedLapNums_sorted laps) L hL

theorem mem_sortByCum (m : CumMap) (q : ℕ × ℚ) : q ∈ sortByCum m ↔ q ∈ m :=
  (List.perm_insertionSort cumLE m).mem_iff

theorem mapKeys_sortByCum_perm (m : CumMap) :
    (mapKeys (sortByCum m)).Perm (mapKeys m) :=
  (List.perm_insertionSort cumLE m).map Prod.fst

theorem nodup_keys_sortByCum (m : CumMap) (h : (mapKeys m).Nodup) :
    (mapKeys (sortByCum m)).Nodup :=
  (mapKeys_sortByCum_perm m).nodup_iff.mpr h

theorem mem_emitLap (drivers : List ℕ) (n : ℕ) (m : CumMap)
    (e : PositionTableEntry) :
    e ∈ emitLap drivers n m ↔
      ∃ i q, (sortByCum m)[i]? = some q ∧ q.1 ∈ drivers ∧
        e = ⟨n, q.1, i + 1⟩ := by
  unfold emitLap
  rw [List.mem_filterMap]
  constructor
  · rintro ⟨p, hp, hf⟩
    by_cases hd : p.2.1 ∈ drivers
    · rw [if_pos hd] at hf
      refine ⟨p.1, p.2, List.mem_enum_iff_getElem?.mp hp, hd, (Option.some_inj.mp hf).symm⟩
    · rw [if_neg hd] at hf
      exact absurd hf (by simp)
  · rintro ⟨i, q, hget, hd, rfl⟩
    refine ⟨(i, q), List.mem_enum_iff_getElem?.mpr hget, ?_⟩
    rw [if_pos hd]

theorem filterMap_congr_some {α β : Type} (f : α → Option β) (g : α → β)
    (l : List α) (h : ∀ x ∈ l, f x = some (g x)) : l.filterMap f = l.map g := by
  induction l with
  | nil => rfl
  | cons x xs ih =>
      rw [List.filterMap_cons_some (h x (List.mem_cons_self x xs)), List.map_cons,
        ih (fun y hy => h y (List.mem_cons_of_mem x hy))]

theorem emitLap_all (drivers : List ℕ) (n : ℕ) (m : CumMap)
    (hsub : ∀ k ∈ mapKeys (sortByCum m), k ∈ drivers) :
    emitLap drivers n m =
      (sortByCum m).enum.map
        (fun p => (⟨n, p.2.1, p.1 + 1⟩ : PositionTableEntry)) := by
  unfold emitLap
  apply filterMap_congr_some
  intro p hp
  have hmem : p.2 ∈ sortByCum m := by
    have := List.mem_enum_iff_getElem?.mp hp
    exact List.get?_mem (by rw [List.get?_eq_getElem?]; exact this)
  have hkey : p.2.1 ∈ mapKeys (sortByCum m) := List.mem_map.mpr ⟨p.2, hmem, rfl⟩
  rw [if_pos (hsub p.2.1 hkey)]

theorem emitLap_all_positions (drivers : List ℕ) (n : ℕ) (m : CumMap)
    (hsub : ∀ k ∈ mapKeys (sortByCum m), k ∈ drivers) :
    (emitLap drivers n m).map (fun e => e.position) = List.range' 1 m.length := by
  rw [emitLap_all drivers n m hsub, List.map_map]
  rw [show ((fun e : PositionTableEntry => e.position) ∘
      (fun p : ℕ × (ℕ × ℚ) => (⟨n, p.2.1, p.1 + 1⟩ : PositionTableEntry))) =
      ((fun i => i + 1) ∘ Prod.fst) from rfl]
  rw [← List.map_map, List.enum_map_fst, List.range'_eq_map_range,
    show (sortByCum m).length = m.length from
      (List.perm_insertionSort cumLE m).length_eq]
  apply List.map_congr_left
  intro x _
  omega

theorem emitLap_all_drivers (drivers : List ℕ) (n : ℕ) (m : CumMap)
    (hsub : ∀ k ∈ mapKeys (sortByCum m), k ∈ drivers) :
    (emitLap drivers n m).map (fun e => e.driverNumber) = mapKeys (sortByCum m) := by
  rw [emitLap_all drivers n m hsub, List.map_map]
  rw [show ((fun e : PositionTableEntry => e.driverNumber) ∘
      (fun p : ℕ × (ℕ × ℚ) => (⟨n, p.2.1, p.1 + 1⟩ : PositionTableEntry))) =
      (Prod.fst ∘ Prod.snd) from rfl]
  rw [← List.map_map, List.enum_map_snd]
  rfl

theorem lapNumber_mem_entriesFrom (drivers : List ℕ) (laps : List LapRec) :
    ∀ (nums : List ℕ) (m : CumMap) (e : PositionTableEntry),
      e ∈ entriesFrom drivers laps m nums → e.lapNumber ∈ nums := by
  intro nums
  induction nums with
  | nil =>
      intro m e h
      exact absurd h (List.not_mem_nil e)
  | cons n ns ih =>
      intro m e h
      simp only [entriesFrom] at h
      rcases List.mem_append.mp h with h | h
      · rcases (mem_emitLap _ _ _ _).mp h with ⟨i, q, _, _, rfl⟩
        exact List.mem_cons_self n ns
      · exact List.mem_cons_of_mem n (ih _ e h)

theorem driver_mem_entriesFrom (drivers : List ℕ) (laps : List LapRec) :
    ∀ (nums : List ℕ) (m : CumMap) (e : PositionTableEntry),
      e ∈ entriesFrom drivers laps m nums →
        e.driverNumber ∈ mapKeys m ∨
          ∃ l ∈ laps, l.driverNumber = e.driverNumber ∧ l.lapDuration ≠ none := by
  intro nums
  induction nums with
  | nil =>
      intro m e h
      exact absurd h (List.not_mem_nil e)
  | cons n ns ih =>
      intro m e h
      simp only [entriesFrom] at h
      have hstep : ∀ d, d ∈ mapKeys (updateCum m (lapsAt laps n)) →
          d ∈ mapKeys m ∨ ∃ l ∈ laps, l.driverNumber = d ∧ l.lapDuration ≠ none := by
        intro d hd
        rcases (mem_mapKeys_updateCum _ _ _).mp hd with hd | ⟨l, hl, hld, hldur⟩
        · exact Or.inl hd
        · exact Or.inr ⟨l, ((mem_lapsAt laps n l).mp hl).1, hld, hldur⟩
      rcases List.mem_append.mp h with h | h
      · rcases (mem_emitLap _ _ _ _).mp h with ⟨i, q, hget, _, rfl⟩
        have hqmem : q ∈ sortByCum (updateCum m (lapsAt laps n)) :=
          List.get?_mem (by rw [List.get?_eq_getElem?]; exact hget)
        have hkey : q.1 ∈ mapKeys (updateCum m (lapsAt laps n)) :=
          List.mem_map.mpr ⟨q, (mem_sortByCum _ q).mp hqmem, rfl⟩
        exact hstep q.1 hkey
      · rcases ih _ e h with hd | hd
        · exact hstep e.driverNumber hd
        · exact Or.inr hd

end TableLemmas


section ClaimC8

theorem mapGet_updateCum_of_none (g : List LapRec) (m : CumMap) (d : ℕ)
    (h : ∀ l ∈ g, l.driverNumber = d → l.lapDuration = none) :
    mapGet (updateCum m g) d = mapGet m d := by
  induction g generalizing m with
  | nil => rfl
  | cons lap g ih =>
      rw [updateCum_cons]
      cases hdur : lap.lapDuration with
      | none => exact ih m (fun l hl => h l (List.mem_cons_of_mem _ hl))
      | some dd =>
          have hld : lap.driverNumber ≠ d := by
            intro hc
            have := h lap (List.mem_cons_self lap g) hc
            rw [hdur] at this
            exact Option.noConfusion this
          rw [ih _ (fun l hl => h l (List.mem_cons_of_mem _ hl)),
            mapGet_mapSet_ne m lap.driverNumber d _ (fun hc => hld hc.symm)]

theorem mem_numsBefore (laps : List LapRec) (L n : ℕ)
    (hL : L ∈ sortedLapNums laps) :
    n ∈ numsBefore laps L ↔ n ∈ sortedLapNums laps ∧ n < L := by
  obtain ⟨t, hsplit, ht⟩ := sortedLapNums_split laps L hL
  constructor
  · intro hn
    have hn2 : n ∈ (sortedLapNums laps).takeWhile (fun k => decide (k < L)) := hn
    have hdec := List.mem_takeWhile_imp hn2
    refine ⟨?_, by simpa using hdec⟩
    rw [hsplit]
    exact List.mem_append.mpr (Or.inl hn)
  · rintro ⟨hmem, hlt⟩
    rw [hsplit] at hmem
    rcases List.mem_append.mp hmem with h | h
    · exact h
    · rcases List.mem_cons.mp h with h | h
      · omega
      · have := ht n h
        omega

/-- C8: a driver with a valid (non-null) lap before lap number L but no
valid lap at L still receives a position-table row at L, ranked by a
cumulative total unchanged from before L, rather than being omitted. -/
theorem C8_missing_lap_carry (drivers : List ℕ) (laps : List LapRec) (L d : ℕ)
    (hproc : L ∈ sortedLapNums laps) (hd : d ∈ drivers)
    (hbefore : ∃ l ∈ laps,
      l.driverNumber = d ∧ l.lapNumber < L ∧ l.lapDuration ≠ none)
    (hnone : ∀ l ∈ laps, l.lapNumber = L → l.driverNumber = d →
      l.lapDuration = none) :
    (∃ p, (⟨L, d, p⟩ : PositionTableEntry) ∈ reconstructPositions drivers laps) ∧
      mapGet (cumThrough laps (numsBefore laps L ++ [L])) d =
        mapGet (cumThrough laps (numsBefore laps L)) d := by
  have hdkey : d ∈ mapKeys (cumThrough laps (numsBefore laps L)) := by
    obtain ⟨l, hl, hld, hlt, hldur⟩ := hbefore
    unfold cumThrough
    rw [mem_mapKeys_cumFoldFrom]
    exact Or.inr ⟨l, hl, (mem_numsBefore laps L l.lapNumber hproc).mpr
      ⟨(mem_sortedLapNums laps _).mpr ⟨l, hl, rfl⟩, hlt⟩, hld, hldur⟩
  have hthrough : cumThrough laps (numsBefore laps L ++ [L]) =
      updateCum (cumThrough laps (numsBefore laps L)) (lapsAt laps L) := by
    unfold cumThrough
    rw [cumFoldFrom_append]
    rfl
  have hunch : mapGet (cumThrough laps (numsBefore laps L ++ [L])) d =
      mapGet (cumThrough laps (numsBefore laps L)) d := by
    rw [hthrough]
    apply mapGet_updateCum_of_none
    intro l hl hld
    exact hnone l ((mem_lapsAt laps L l).mp hl).1 ((mem_lapsAt laps L l).mp hl).2 hld
  refine ⟨?_, hunch⟩
  have hdkeyL : d ∈ mapKeys
      (updateCum (cumThrough laps (numsBefore laps L)) (lapsAt laps L)) := by
    rw [mem_mapKeys_updateCum]
    exact Or.inl hdkey
  obtain ⟨q, hq, hq1⟩ := List.mem_map.mp hdkeyL
  have hqsort : q ∈ sortByCum
      (updateCum (cumThrough laps (numsBefore laps L)) (lapsAt laps L)) :=
    (mem_sortByCum _ q).mpr hq
  obtain ⟨i, hi⟩ := List.getElem?_of_mem hqsort
  have hrow : (⟨L, d, i + 1⟩ : PositionTableEntry) ∈ emitLap drivers L
      (updateCum (cumThrough laps (numsBefore laps L)) (lapsAt laps L)) := by
    rw [mem_emitLap]
    refine ⟨i, q, hi, ?_, ?_⟩
    · rw [hq1]
      exact hd
    · rw [hq1]
  rw [reconstructPositions_eq]
  obtain ⟨t, hsplit, _⟩ := sortedLapNums_split laps L hproc
  refine ⟨i + 1, ?_⟩
  rw [hsplit, entriesFrom_append]
  apply List.mem_append.mpr
  right
  simp only [entriesFrom]
  apply List.mem_append.mpr
  left
  exact hrow

/-- The session used by the C8 and C10 witnesses. -/
def c8laps : List LapRec :=
  [⟨1, 1, some 50, false⟩, ⟨2, 1, some 60, false⟩, ⟨2, 2, some 60, false⟩]

/-- Witness for C8: driver 1 has a valid lap 1 but no lap 2; lap 2 is still
processed (driver 2 has one), and driver 1 receives a row at lap 2 with an
unchanged cumulative total. -/
theorem C8_missing_lap_carry_witness :
    (∃ p, (⟨2, 1, p⟩ : PositionTableEntry) ∈ reconstructPositions [1, 2] c8laps) ∧
      mapGet (cumThrough c8laps (numsBefore c8laps 2 ++ [2])) 1 =
        mapGet (cumThrough c8laps (numsBefore c8laps 2)) 1 :=
  C8_missing_lap_carry [1, 2] c8laps 2 1 (by decide) (by decide)
    ⟨⟨1, 1, some 50, false⟩, by decide, by decide⟩ (by decide)

end ClaimC8


section ClaimC9

theorem cumThrough_snoc (laps : List LapRec) (ns : List ℕ) (L : ℕ) :
    cumThrough laps (ns ++ [L]) =
      updateCum (cumThrough laps ns) (lapsAt laps L) := by
  unfold cumThrough
  rw [cumFoldFrom_append]
  rfl

/-- C9: at every processed lap number L, the emitted positions are exactly
1..K in order, where K is the number of drivers holding a key in the
cumulative map — characterized as exactly the drivers with at least one
non-null lap at a number up to L; no driver gets two rows at one lap number,
and a driver with no non-null lap in the whole session never appears
anywhere in the table. -/
theorem filter_reconstruct_at (drivers : List ℕ) (laps : List LapRec) (L : ℕ)
    (hproc : L ∈ sortedLapNums laps) :
    (reconstructPositions drivers laps).filter
        (fun e => decide (e.lapNumber = L)) =
      emitLap drivers L (cumThrough laps (numsBefore laps L ++ [L])) := by
  obtain ⟨t, hsplit, ht⟩ := sortedLapNums_split laps L hproc
  rw [reconstructPositions_eq, hsplit, entriesFrom_append, List.filter_append]
  have h1 : (entriesFrom drivers laps [] (numsBefore laps L)).filter
      (fun e => decide (e.lapNumber = L)) = [] := by
    rw [List.filter_eq_nil_iff]
    intro e he
    have hmem := lapNumber_mem_entriesFrom drivers laps _ _ e he
    have hlt : e.lapNumber < L := ((mem_numsBefore laps L _ hproc).mp hmem).2
    simp only [decide_eq_true_eq]
    omega
  rw [h1, List.nil_append]
  simp only [entriesFrom]
  rw [List.filter_append]
  have h2 : (emitLap drivers L (updateCum
      (cumFoldFrom laps [] (numsBefore laps L)) (lapsAt laps L))).filter
      (fun e => decide (e.lapNumber = L)) =
      emitLap drivers L (updateCum
        (cumFoldFrom laps [] (numsBefore laps L)) (lapsAt laps L)) := by
    rw [List.filter_eq_self]
    intro e he
    rcases (mem_emitLap _ _ _ _).mp he with ⟨i, q, _, _, rfl⟩
    simp
  have h3 : (entriesFrom drivers laps (updateCum
      (cumFoldFrom laps [] (numsBefore laps L)) (lapsAt laps L)) t).filter
      (fun e => decide (e.lapNumber = L)) = [] := by
    rw [List.filter_eq_nil_iff]
    intro e he
    have hmem := lapNumber_mem_entriesFrom drivers laps _ _ e he
    have hgt := ht _ hmem
    simp only [decide_eq_true_eq]
    omega
  rw [h2, h3, List.append_nil, cumThrough_snoc]
  rfl

theorem C9_positions_complete (drivers : List ℕ) (laps : List LapRec) (L : ℕ)
    (hproc : L ∈ sortedLapNums laps)
    (hsub : ∀ l ∈ laps, l.driverNumber ∈ drivers) :
    ((reconstructPositions drivers laps).filter
        (fun e => decide (e.lapNumber = L))).map (fun e => e.position) =
      List.range' 1 (cumThrough laps (numsBefore laps L ++ [L])).length ∧
    (∀ d, d ∈ mapKeys (cumThrough laps (numsBefore laps L ++ [L])) ↔
      ∃ l ∈ laps, l.driverNumber = d ∧ l.lapNumber ≤ L ∧ l.lapDuration ≠ none) ∧
    (((reconstructPositions drivers laps).filter
        (fun e => decide (e.lapNumber = L))).map (fun e => e.driverNumber)).Nodup ∧
    (∀ d, (∀ l ∈ laps, l.driverNumber = d → l.lapDuration = none) →
      ∀ e ∈ reconstructPositions drivers laps, e.driverNumber ≠ d) := by
  have hfilter := filter_reconstruct_at drivers laps L hproc
  have hkeysub : ∀ k ∈ mapKeys (sortByCum
      (cumThrough laps (numsBefore laps L ++ [L]))), k ∈ drivers := by
    intro k hk
    have hk2 : k ∈ mapKeys (cumThrough laps (numsBefore laps L ++ [L])) :=
      ((mapKeys_sortByCum_perm _).mem_iff).mp hk
    unfold cumThrough at hk2
    rcases (mem_mapKeys_cumFoldFrom _ _ _ _).mp hk2 with h | ⟨l, hl, _, hld, _⟩
    · exact absurd h (List.not_mem_nil k)
    · rw [← hld]
      exact hsub l hl
  refine ⟨?_, ?_, ?_, ?_⟩
  · rw [hfilter, emitLap_all_positions drivers L _ hkeysub]
  · intro d
    unfold cumThrough
    rw [mem_mapKeys_cumFoldFrom]
    constructor
    · rintro (h | ⟨l, hl, hln, hld, hldur⟩)
      · exact absurd h (List.not_mem_nil d)
      · refine ⟨l, hl, hld, ?_, hldur⟩
        rcases List.mem_append.mp hln with h | h
        · have := (mem_numsBefore laps L _ hproc).mp h
          omega
        · rw [List.mem_singleton] at h
          omega
    · rintro ⟨l, hl, hld, hle, hldur⟩
      right
      refine ⟨l, hl, ?_, hld, hldur⟩
      rcases Nat.lt_or_ge l.lapNumber L with h | h
      · exact List.mem_append.mpr (Or.inl ((mem_numsBefore laps L _ hproc).mpr
          ⟨(mem_sortedLapNums laps _).mpr ⟨l, hl, rfl⟩, h⟩))
      · have heq : l.lapNumber = L := by omega
        exact List.mem_append.mpr (Or.inr (by
          rw [heq]
          exact List.mem_singleton_self L))
  · rw [hfilter, emitLap_all_drivers drivers L _ hkeysub]
    apply nodup_keys_sortByCum
    unfold cumThrough
    exact nodup_mapKeys_cumFoldFrom laps _ [] (by simp [mapKeys])
  · intro d hnod e he hed
    rw [reconstructPositions_eq] at he
    rcases driver_mem_entriesFrom drivers laps _ _ e he with h | ⟨l, hl, hld, hldur⟩
    · exact absurd h (by simp [mapKeys])
    · rw [hed] at hld
      exact hldur (hnod l hl hld)

/-- Witness for C9: the two-driver session `c8laps` at lap number 2. -/
theorem C9_positions_complete_witness :
    ((reconstructPositions [1, 2] c8laps).filter
        (fun e => decide (e.lapNumber = 2))).map (fun e => e.position) =
      List.range' 1 (cumThrough c8laps (numsBefore c8laps 2 ++ [2])).length ∧
    (∀ d, d ∈ mapKeys (cumThrough c8laps (numsBefore c8laps 2 ++ [2])) ↔
      ∃ l ∈ c8laps, l.driverNumber = d ∧ l.lapNumber ≤ 2 ∧ l.lapDuration ≠ none) ∧
    (((reconstructPositions [1, 2] c8laps).filter
        (fun e => decide (e.lapNumber = 2))).map (fun e => e.driverNumber)).Nodup ∧
    (∀ d, (∀ l ∈ c8laps, l.driverNumber = d → l.lapDuration = none) →
      ∀ e ∈ reconstructPositions [1, 2] c8laps, e.driverNumber ≠ d) :=
  C9_positions_complete [1, 2] c8laps 2 (by decide) (by decide)

end ClaimC9


section ClaimC10

theorem pair_sublist_get? {α : Type} (a b : α) (l : List α)
    (h : [a, b].Sublist l) :
    ∃ (i j : ℕ), i < j ∧ l[i]? = some a ∧ l[j]? = some b := by
  induction l with
  | nil => exact absurd h (by simp)
  | cons x xs ih =>
      cases h with
      | cons _ h2 =>
          obtain ⟨i, j, hij, ha, hb⟩ := ih h2
          exact ⟨i + 1, j + 1, by omega, by simpa using ha, by simpa using hb⟩
      | cons₂ _ h2 =>
          have hb : b ∈ xs := h2.subset (List.mem_singleton_self b)
          obtain ⟨j, hj⟩ := List.getElem?_of_mem hb
          exact ⟨0, j + 1, by omega, by simp, by simpa using hj⟩

/-- C10: position reconstruction is a pure, deterministic function of the
lap list, and the position sort is stable over the accumulation map's
insertion order: when two drivers reach a processed lap L with exactly equal
cumulative totals, the driver whose map entry comes first (the earlier first
valid lap) receives the smaller position at L. -/
theorem C10_determinism_stability (drivers : List ℕ) (laps : List LapRec)
    (L d1 d2 : ℕ) (c : ℚ) (hproc : L ∈ sortedLapNums laps)
    (hpair : [(d1, c), (d2, c)].Sublist
      (cumThrough laps (numsBefore laps L ++ [L]))) :
    reconstructPositions drivers laps = reconstructPositions drivers laps ∧
    (∀ p1 p2,
      (⟨L, d1, p1⟩ : PositionTableEntry) ∈ reconstructPositions drivers laps →
      (⟨L, d2, p2⟩ : PositionTableEntry) ∈ reconstructPositions drivers laps →
      p1 < p2) := by
  refine ⟨rfl, ?_⟩
  intro p1 p2 h1 h2
  have hnodupKeys :
      (mapKeys (sortByCum (cumThrough laps (numsBefore laps L ++ [L])))).Nodup := by
    apply nodup_keys_sortByCum
    exact nodup_mapKeys_cumFoldFrom laps _ [] (by simp [mapKeys])
  have hsortpair : [(d1, c), (d2, c)].Sublist
      (sortByCum (cumThrough laps (numsBefore laps L ++ [L]))) :=
    List.pair_sublist_insertionSort (show cumLE (d1, c) (d2, c) from le_refl c)
      hpair
  obtain ⟨i, j, hij, hgi, hgj⟩ := pair_sublist_get? (d1, c) (d2, c) _ hsortpair
  have hfilter := filter_reconstruct_at drivers laps L hproc
  have hrow1 : (⟨L, d1, p1⟩ : PositionTableEntry) ∈
      emitLap drivers L (cumThrough laps (numsBefore laps L ++ [L])) := by
    rw [← hfilter]
    exact List.mem_filter.mpr ⟨h1, by simp⟩
  have hrow2 : (⟨L, d2, p2⟩ : PositionTableEntry) ∈
      emitLap drivers L (cumThrough laps (numsBefore laps L ++ [L])) := by
    rw [← hfilter]
    exact List.mem_filter.mpr ⟨h2, by simp⟩
  rcases (mem_emitLap _ _ _ _).mp hrow1 with ⟨i1, q1, hq1, _, heq1⟩
  rcases (mem_emitLap _ _ _ _).mp hrow2 with ⟨i2, q2, hq2, _, heq2⟩
  simp only [PositionTableEntry.mk.injEq] at heq1 heq2
  obtain ⟨-, h1d, h1p⟩ := heq1
  obtain ⟨-, h2d, h2p⟩ := heq2
  have ki : (mapKeys (sortByCum (cumThrough laps (numsBefore laps L ++ [L]))))[i]? =
      some d1 := by
    unfold mapKeys
    rw [List.getElem?_map, hgi]
    rfl
  have ki1 : (mapKeys (sortByCum (cumThrough laps (numsBefore laps L ++ [L]))))[i1]? =
      some d1 := by
    unfold mapKeys
    rw [List.getElem?_map, hq1, h1d]
    rfl
  have kj : (mapKeys (sortByCum (cumThrough laps (numsBefore laps L ++ [L]))))[j]? =
      some d2 := by
    unfold mapKeys
    rw [List.getElem?_map, hgj]
    rfl
  have kj2 : (mapKeys (sortByCum (cumThrough laps (numsBefore laps L ++ [L]))))[i2]? =
      some d2 := by
    unfold mapKeys
    rw [List.getElem?_map, hq2, h2d]
    rfl
  have hiL : i < (mapKeys (sortByCum (cumThrough laps (numsBefore laps L ++ [L])))).length := by
    by_contra hc
    rw [List.getElem?_eq_none (by omega)] at ki
    exact Option.noConfusion ki
  have hjL : j < (mapKeys (sortByCum (cumThrough laps (numsBefore laps L ++ [L])))).length := by
    by_contra hc
    rw [List.getElem?_eq_none (by omega)] at kj
    exact Option.noConfusion kj
  have hii1 : i = i1 := List.getElem?_inj hiL hnodupKeys (ki.trans ki1.symm)
  have hji2 : j = i2 := List.getElem?_inj hjL hnodupKeys (kj.trans kj2.symm)
  omega

/-- The spec example session for the C10 tie: driver 1 laps 60, 61, 59 and
driver 2 laps 60, 60, 60; both cumulative totals are 180 after lap 3, and
driver 1 recorded the earlier first valid lap. -/
def c10laps : List LapRec :=
  [⟨1, 1, some 60, false⟩, ⟨2, 1, some 60, false⟩,
   ⟨1, 2, some 61, false⟩, ⟨2, 2, some 60, false⟩,
   ⟨1, 3, some 59, false⟩, ⟨2, 3, some 60, false⟩]

/-- Witness for C10: in the tie at lap 3 of `c10laps`, driver 1 is ranked
position 1 and driver 2 position 2, and the theorem orders them. -/
theorem C10_determinism_stability_witness :
    (⟨3, 1, 1⟩ : PositionTableEntry) ∈ reconstructPositions [1, 2] c10laps ∧
    (⟨3, 2, 2⟩ : PositionTableEntry) ∈ reconstructPositions [1, 2] c10laps ∧
    1 < 2 := by
  have hshape : cumThrough c10laps (numsBefore c10laps 3 ++ [3]) =
      [(1, 0 + 60 + 61 + 59), (2, 0 + 60 + 60 + 60)] := rfl
  have hm : cumThrough c10laps (numsBefore c10laps 3 ++ [3]) =
      [(1, 180), (2, 180)] := by
    rw [hshape]
    norm_num
  have h1 : (⟨3, 1, 1⟩ : PositionTableEntry) ∈ reconstructPositions [1, 2] c10laps := by
    apply List.mem_of_mem_filter (p := fun e => decide (e.lapNumber = 3))
    rw [filter_reconstruct_at [1, 2] c10laps 3 (by decide), hm]
    decide
  have h2 : (⟨3, 2, 2⟩ : PositionTableEntry) ∈ reconstructPositions [1, 2] c10laps := by
    apply List.mem_of_mem_filter (p := fun e => decide (e.lapNumber = 3))
    rw [filter_reconstruct_at [1, 2] c10laps 3 (by decide), hm]
    decide
  refine ⟨h1, h2, ?_⟩
  exact (C10_determinism_stability [1, 2] c10laps 3 1 2 180 (by decide)
    (by rw [hm])).2 1 2 h1 h2

end ClaimC10

end PositionReconstruction

end ApexAnalyzer
